import Mathlib

/-!
A shallow embedding of the AceCast tennis Elo rating engine
(`elo.py`, `elo_system.py`, `app.py`, `ui/tournament.py`).

Python dictionaries are modelled as association lists (`List (String × V)`)
preserving insertion order.  `defaultdict` reads are modelled by `dread`,
which returns the (possibly extended) container together with the value
read, exactly mirroring the implicit insert-on-read of `defaultdict`.
Floating point arithmetic of the source is idealised by exact real
arithmetic (`ℝ`); `10**x` becomes `Real.rpow`.  Dates are modelled by
their proleptic Gregorian ordinal (`Nat`), matching
`datetime.date.toordinal`.
-/

namespace AceCast

/-- Lookup in an insertion-ordered association list (Python `d[k]` on a
plain dict when the key is present / `k in d` membership check). -/
def alookup {V : Type} : List (String × V) → String → Option V
  | [], _ => none
  | (k, v) :: t, key => if k = key then some v else alookup t key

/-- Python dict assignment `d[k] = v`: replaces the value in place when the
key exists (keeping its position), otherwise appends at the end. -/
def aset {V : Type} : List (String × V) → String → V → List (String × V)
  | [], key, v => [(key, v)]
  | (k, w) :: t, key, v =>
      if k = key then (k, v) :: t else (k, w) :: aset t key v

/-- `d.get(k, default)` / read with default, without mutation. -/
def agetD {V : Type} (l : List (String × V)) (key : String) (d : V) : V :=
  (alookup l key).getD d

/-- `k in d`. -/
def acontains {V : Type} (l : List (String × V)) (key : String) : Bool :=
  (alookup l key).isSome

/-- A `defaultdict` subscript read `d[k]`: if the key is absent, the default
is inserted (at the end, as Python does) and returned.  The result is the
new container together with the value read. -/
def dread {V : Type} (l : List (String × V)) (key : String) (d : V) :
    List (String × V) × V :=
  match alookup l key with
  | some v => (l, v)
  | none => (l ++ [(key, d)], d)

/-- A `defaultdict` read-modify-write `d[k] = f(d[k])`. -/
def dupdate {V : Type} (l : List (String × V)) (key : String) (d : V)
    (f : V → V) : List (String × V) :=
  let r := dread l key d
  aset r.1 key (f r.2)

@[simp] theorem alookup_nil {V : Type} (key : String) :
    alookup ([] : List (String × V)) key = none := rfl

theorem alookup_cons {V : Type} (k : String) (v : V) (t : List (String × V))
    (key : String) :
    alookup ((k, v) :: t) key = if k = key then some v else alookup t key := rfl

@[simp] theorem alookup_aset {V : Type} (l : List (String × V))
    (k : String) (v : V) (key : String) :
    alookup (aset l k v) key = if k = key then some v else alookup l key := by
  induction l with
  | nil => simp [aset, alookup_cons]
  | cons hd t ih =>
      rcases hd with ⟨hk, hv⟩
      by_cases h : hk = k
      · subst h
        simp only [aset, if_pos rfl, alookup_cons]
        by_cases h2 : hk = key <;> simp [alookup_cons, h2]
      · simp only [aset, if_neg h, alookup_cons]
        by_cases h2 : hk = key
        · subst h2
          have hne : ¬ k = hk := fun e => h e.symm
          simp [hne]
        · simp [h2, ih]

theorem alookup_append {V : Type} (l₁ l₂ : List (String × V)) (key : String) :
    alookup (l₁ ++ l₂) key =
      match alookup l₁ key with
      | some v => some v
      | none => alookup l₂ key := by
  induction l₁ with
  | nil => simp
  | cons hd t ih =>
      rcases hd with ⟨hk, hv⟩
      by_cases h : hk = key <;> simp [alookup_cons, h, ih]

@[simp] theorem dread_snd {V : Type} (l : List (String × V)) (key : String)
    (d : V) : (dread l key d).2 = agetD l key d := by
  unfold dread agetD
  cases alookup l key <;> simp

theorem dread_fst_of_present {V : Type} {l : List (String × V)} {key : String}
    {v : V} (h : alookup l key = some v) (d : V) : (dread l key d).1 = l := by
  unfold dread; rw [h]

theorem alookup_dread_fst_absent {V : Type} {l : List (String × V)}
    {key : String} (h : alookup l key = none) (d : V) (key' : String) :
    alookup (dread l key d).1 key' =
      if key = key' then some d else alookup l key' := by
  unfold dread
  simp only [h, alookup_append]
  cases h2 : alookup l key' with
  | some w =>
      have hne : ¬ (key = key') := by
        rintro rfl; rw [h] at h2; exact Option.noConfusion h2
      simp [hne, h2]
  | none =>
      by_cases hk : key = key' <;> simp [alookup_cons, hk, h2]

/-- Value observed with the same default is unchanged by a `defaultdict`
materialising read. -/
theorem agetD_dread_fst {V : Type} (l : List (String × V)) (key : String)
    (d : V) (key' : String) :
    agetD (dread l key d).1 key' d = agetD l key' d := by
  cases h : alookup l key with
  | some v => rw [dread_fst_of_present h]
  | none =>
      unfold agetD
      rw [alookup_dread_fst_absent h]
      by_cases hk : key = key'
      · subst hk
        simp [h]
      · simp [hk]

theorem agetD_aset {V : Type} (l : List (String × V)) (k : String) (v : V)
    (key : String) (d : V) :
    agetD (aset l k v) key d = if k = key then v else agetD l key d := by
  unfold agetD
  rw [alookup_aset]
  by_cases h : k = key <;> simp [h]

theorem agetD_dupdate {V : Type} (l : List (String × V)) (k : String) (d : V)
    (f : V → V) (key : String) :
    agetD (dupdate l k d f) key d =
      if k = key then f (agetD l k d) else agetD l key d := by
  unfold dupdate
  rw [agetD_aset]
  by_cases h : k = key
  · simp [h]
  · simp only [if_neg h]
    have := agetD_dread_fst l k d key
    simp [this]

theorem dread_of_present {V : Type} {l : List (String × V)} {key : String}
    {v : V} (h : alookup l key = some v) (d : V) : dread l key d = (l, v) := by
  unfold dread; rw [h]

theorem aset_of_present {V : Type} {l : List (String × V)} {key : String}
    {v : V} (h : alookup l key = some v) : aset l key v = l := by
  induction l with
  | nil => exact absurd h (by simp)
  | cons hd t ih =>
      rcases hd with ⟨hk, hv⟩
      by_cases hk' : hk = key
      · subst hk'
        rw [alookup_cons, if_pos rfl] at h
        cases h
        simp [aset]
      · rw [alookup_cons, if_neg hk'] at h
        simp [aset, hk', ih h]

theorem acontains_aset {V : Type} (l : List (String × V)) (k : String) (v : V)
    (key : String) :
    acontains (aset l k v) key = (k = key ∨ acontains l key = true) := by
  unfold acontains
  rw [alookup_aset]
  by_cases h : k = key
  · simp [h]
  · simp [h]

/-! ### Record normalizer (`EloModel.normalize_name` / `normalize_surface`) -/

/-- Splits a character list into maximal runs of non-whitespace characters,
i.e. Python `str.split()` with no argument. -/
def splitWords : List Char → List Char → List (List Char)
  | [], acc => if acc = [] then [] else [acc.reverse]
  | c :: rest, acc =>
      if c.isWhitespace then
        if acc = [] then splitWords rest []
        else acc.reverse :: splitWords rest []
      else splitWords rest (c :: acc)

/-- Joins words with single spaces, i.e. the character-level rendering of
the Python join with a single-space separator. -/
def joinWords : List (List Char) → List Char
  | [] => []
  | [w] => w
  | w :: ws => w ++ ' ' :: joinWords ws

/-- `normalize_name`: join with single spaces after `.strip().split()` —
strips and collapses whitespace runs to single spaces (the leading
`strip()` is subsumed by `split()`). -/
def normalizeName (name : String) : String :=
  String.mk (joinWords (splitWords name.toList []))

/-- Python `str.strip()`: drop whitespace from both ends. -/
def pyStrip (s : String) : String :=
  String.mk (((s.toList.dropWhile Char.isWhitespace).reverse.dropWhile
    Char.isWhitespace).reverse)

/-- Python `str.lower()` (character-wise, as for the ASCII labels the
source deals with). -/
def pyToLower (s : String) : String :=
  String.mk (s.toList.map Char.toLower)

/-- `normalize_surface`: lower-case and strip, map `"carpet"`/`"indoor hard"`
to `"indoor_hard"`, pass the four canonical surfaces through, and default
everything else to `"hard"`. -/
def normalizeSurface (raw : String) : String :=
  let s := pyToLower (pyStrip raw)
  if s = "carpet" ∨ s = "indoor hard" then "indoor_hard"
  else if s = "hard" ∨ s = "clay" ∨ s = "grass" ∨ s = "indoor_hard" then s
  else "hard"

/-! #### Idempotency of the name normalizer -/

theorem splitWords_nil (acc : List Char) :
    splitWords [] acc = if acc = [] then [] else [acc.reverse] := rfl

theorem splitWords_cons (c : Char) (rest acc : List Char) :
    splitWords (c :: rest) acc =
      if c.isWhitespace then
        if acc = [] then splitWords rest []
        else acc.reverse :: splitWords rest []
      else splitWords rest (c :: acc) := rfl

/-- Every word produced by `splitWords` is nonempty and free of
whitespace, provided the accumulator is. -/
theorem splitWords_ok :
    ∀ (cs : List Char) (acc : List Char),
      (∀ c ∈ acc, c.isWhitespace = false) →
      ∀ w ∈ splitWords cs acc, w ≠ [] ∧ ∀ c ∈ w, c.isWhitespace = false := by
  intro cs
  induction cs with
  | nil =>
      intro acc hacc w hw
      rw [splitWords_nil] at hw
      by_cases h : acc = []
      · rw [if_pos h] at hw
        exact absurd hw (List.not_mem_nil w)
      · rw [if_neg h] at hw
        rcases List.mem_singleton.mp hw with rfl
        refine ⟨fun e => h (by simpa using congrArg List.reverse e), ?_⟩
        intro c hc
        exact hacc c (List.mem_reverse.mp hc)
  | cons c rest ih =>
      intro acc hacc w hw
      rw [splitWords_cons] at hw
      by_cases hws : c.isWhitespace
      · rw [if_pos hws] at hw
        by_cases h : acc = []
        · rw [if_pos h] at hw
          exact ih [] (by intro x hx; exact absurd hx (List.not_mem_nil x)) w hw
        · rw [if_neg h] at hw
          cases List.mem_cons.mp hw with
          | inl e =>
              subst e
              refine ⟨fun e => h (by simpa using congrArg List.reverse e), ?_⟩
              intro d hd
              exact hacc d (List.mem_reverse.mp hd)
          | inr e =>
              exact ih [] (by intro x hx; exact absurd hx (List.not_mem_nil x)) w e
      · rw [if_neg hws] at hw
        refine ih (c :: acc) ?_ w hw
        intro d hd
        cases List.mem_cons.mp hd with
        | inl e => subst e; exact Bool.of_not_eq_true hws
        | inr e => exact hacc d e

/-- Reading a whitespace-free word accumulates it. -/
theorem splitWords_word (w : List Char) (hw : ∀ c ∈ w, c.isWhitespace = false) :
    ∀ (cs acc : List Char),
      splitWords (w ++ cs) acc = splitWords cs (w.reverse ++ acc) := by
  induction w with
  | nil => intro cs acc; simp
  | cons c t ih =>
      intro cs acc
      have hc : c.isWhitespace = false := hw c (List.mem_cons_self c t)
      have ht : ∀ d ∈ t, d.isWhitespace = false :=
        fun d hd => hw d (List.mem_cons_of_mem c hd)
      rw [List.cons_append, splitWords_cons, hc]
      simp only [Bool.false_eq_true, if_false]
      rw [ih ht cs (c :: acc)]
      simp

/-- `splitWords` inverts `joinWords` on lists of nonempty
whitespace-free words. -/
theorem splitWords_joinWords :
    ∀ ws : List (List Char),
      (∀ w ∈ ws, w ≠ [] ∧ ∀ c ∈ w, c.isWhitespace = false) →
      splitWords (joinWords ws) [] = ws := by
  intro ws
  induction ws with
  | nil => intro _; rfl
  | cons w ws ih =>
      intro h
      obtain ⟨hne, hchars⟩ := h w (List.mem_cons_self w ws)
      have hws : ∀ u ∈ ws, u ≠ [] ∧ ∀ c ∈ u, c.isWhitespace = false :=
        fun u hu => h u (List.mem_cons_of_mem w hu)
      cases ws with
      | nil =>
          show splitWords w [] = [w]
          have h2 := splitWords_word w hchars [] []
          simp only [List.append_nil] at h2
          rw [h2, splitWords_nil, if_neg (by simpa using hne)]
          simp
      | cons w2 ws2 =>
          show splitWords (w ++ ' ' :: joinWords (w2 :: ws2)) [] = w :: w2 :: ws2
          rw [splitWords_word w hchars (' ' :: joinWords (w2 :: ws2)) []]
          rw [List.append_nil, splitWords_cons, if_pos (by decide),
            if_neg (by simpa using hne)]
          rw [ih hws]
          simp

/-- `normalize_name` is idempotent. -/
theorem normalizeName_idem (a : String) :
    normalizeName (normalizeName a) = normalizeName a := by
  unfold normalizeName
  have h1 : (String.mk (joinWords (splitWords a.toList []))).toList
      = joinWords (splitWords a.toList []) := rfl
  rw [h1]
  rw [splitWords_joinWords (splitWords a.toList [])
    (splitWords_ok a.toList [] (by intro x hx; exact absurd hx (List.not_mem_nil x)))]

/-! ### Expected score and the engine state -/

/-- `EloModel.expected_score`: `1 / (1 + 10**((rb - ra) / 400))`. -/
noncomputable def expected_score (ra rb : ℝ) : ℝ :=
  1 / (1 + (10 : ℝ) ^ ((rb - ra) / 400))

theorem rpow_pos_aux (x : ℝ) : 0 < (10 : ℝ) ^ x :=
  Real.rpow_pos_of_pos (by norm_num) x

/-- Zero-sum property of the logistic expectation. -/
theorem expected_score_complement (ra rb : ℝ) :
    expected_score ra rb + expected_score rb ra = 1 := by
  unfold expected_score
  have hx : (0 : ℝ) < (10 : ℝ) ^ ((rb - ra) / 400) := rpow_pos_aux _
  have hneg : (10 : ℝ) ^ ((ra - rb) / 400) =
      ((10 : ℝ) ^ ((rb - ra) / 400))⁻¹ := by
    rw [show (ra - rb) / 400 = -((rb - ra) / 400) by ring,
      Real.rpow_neg (by norm_num)]
  rw [hneg]
  have h1 : (1 : ℝ) + (10 : ℝ) ^ ((rb - ra) / 400) ≠ 0 := by positivity
  field_simp
  ring

theorem expected_score_self (r : ℝ) : expected_score r r = 1 / 2 := by
  unfold expected_score
  norm_num

/-- One recorded result in the bounded per-surface history of a player:
`('W' | 'L', date)` with the date as a proleptic Gregorian ordinal. -/
abbrev HistEntry := Char × Nat

/-- `PlayerStats`: per-player mutable state.  The `defaultdict` value
factories of the dataclass (`1500.0`, empty deque capped at 50, `(0, 0)`,
nested `(0, 0)` maps) appear as the defaults passed to `dread`/`dupdate`
at every access site. -/
structure PlayerStats where
  overall_elo : ℝ
  surface_elos : List (String × ℝ)
  match_history : List (String × List HistEntry)
  h2h_overall : List (String × (Nat × Nat))
  h2h_surface : List (String × List (String × (Nat × Nat)))

/-- A freshly constructed `PlayerStats()`. -/
def defaultStats : PlayerStats :=
  { overall_elo := 1500, surface_elos := [], match_history := [],
    h2h_overall := [], h2h_surface := [] }

/-- A parsed `Match` record. -/
structure Match where
  date : Nat
  surface : String
  winner : String
  loser : String
  score : String
  best_of : Int
  round_name : String

/-- The `EloModel` engine state. -/
structure EloModel where
  k : ℝ
  bleed : ℝ
  players : List (String × PlayerStats)
  match_list : List Match
  max_date : Option Nat

/-- `EloModel(k=32.0, bleed=0.2)` with the constructor defaults. -/
noncomputable def initModel : EloModel :=
  { k := 32, bleed := 0.2, players := [], match_list := [], max_date := none }

/-! ### Observation functions (values readable from a state) -/

/-- The `PlayerStats` a name maps to, defaulting to a fresh one. -/
def pget (ps : List (String × PlayerStats)) (p : String) : PlayerStats :=
  (alookup ps p).getD defaultStats

/-- Whether a player has a state entry. -/
def hasPlayer (st : EloModel) (p : String) : Bool :=
  (alookup st.players p).isSome

/-- The overall rating of a player, counting absent players at the default. -/
def overallVal (st : EloModel) (p : String) : ℝ :=
  (pget st.players p).overall_elo

/-- The surface rating of a player, counting absent entries at the default. -/
def surfEloVal (st : EloModel) (p s : String) : ℝ :=
  agetD (pget st.players p).surface_elos s 1500

/-- The overall head-to-head tally of a player against an opponent. -/
def h2hOverallVal (st : EloModel) (p q : String) : Nat × Nat :=
  agetD (pget st.players p).h2h_overall q (0, 0)

/-- The per-surface head-to-head tally of a player against an opponent. -/
def h2hSurfVal (st : EloModel) (p s q : String) : Nat × Nat :=
  agetD (agetD (pget st.players p).h2h_surface s []) q (0, 0)

/-- The bounded per-surface history of a player. -/
def historyVal (st : EloModel) (p s : String) : List HistEntry :=
  agetD (pget st.players p).match_history s []

theorem pget_aset (ps : List (String × PlayerStats)) (k : String)
    (v : PlayerStats) (p : String) :
    pget (aset ps k v) p = if k = p then v else pget ps p := by
  unfold pget
  rw [alookup_aset]
  by_cases h : k = p <;> simp [h]

theorem pget_dread_fst (ps : List (String × PlayerStats)) (k p : String) :
    pget (dread ps k defaultStats).1 p = pget ps p := by
  have := agetD_dread_fst ps k defaultStats p
  unfold agetD at this
  unfold pget
  exact this

theorem pget_dread_snd (ps : List (String × PlayerStats)) (k : String) :
    (dread ps k defaultStats).2 = pget ps k := by
  rw [dread_snd]; rfl

/-! ### The update rule (`EloModel._process_match`) -/

/-- `self.players[name].<mutate>`: the `defaultdict` read of the player
(materialising a fresh `PlayerStats` when absent) followed by writing back
the mutated stats object. -/
def modPlayer (ps : List (String × PlayerStats)) (name : String)
    (f : PlayerStats → PlayerStats) : List (String × PlayerStats) :=
  let r := dread ps name defaultStats
  aset r.1 name (f r.2)

theorem pget_modPlayer (ps : List (String × PlayerStats)) (name : String)
    (f : PlayerStats → PlayerStats) (p : String) :
    pget (modPlayer ps name f) p =
      if name = p then f (pget ps name) else pget ps p := by
  unfold modPlayer
  rw [pget_aset]
  by_cases h : name = p
  · simp [h, pget_dread_fst, pget_dread_snd]
    rfl
  · simp [h, pget_dread_fst, pget_dread_snd]

theorem hasPlayer_modPlayer (ps : List (String × PlayerStats)) (name : String)
    (f : PlayerStats → PlayerStats) (p : String) :
    acontains (modPlayer ps name f) p =
      (name = p ∨ acontains ps p = true) := by
  unfold modPlayer acontains
  rw [alookup_aset]
  by_cases h : name = p
  · simp [h]
  · simp only [if_neg h]
    unfold dread
    cases h2 : alookup ps name with
    | some v => simp [h, h2]
    | none =>
        rw [alookup_append]
        cases h3 : alookup ps p with
        | some w => simp [h3, h]
        | none => simp [alookup_cons, h3, h]

/-- `deque(maxlen=50).append`: append on the right, evicting from the left
once the bound is exceeded. -/
def boundedAppend (dq : List HistEntry) (x : HistEntry) : List HistEntry :=
  let r := dq ++ [x]
  if 50 < r.length then r.drop (r.length - 50) else r

/-- The effective K-factor: base `k`, boosted by 10% when the match date is
within 365 days of the maximum observed date of the engine
(`self.max_date and (self.max_date - match.date).days <= 365`). -/
noncomputable def kEff (st : EloModel) (m : Match) : ℝ :=
  match st.max_date with
  | some md => if (md : Int) - (m.date : Int) ≤ 365 then st.k * 1.10 else st.k
  | none => st.k

/-- The surface-rating delta applied to the winner:
`k_factor * (1 - winner_expected)` on the pre-match surface ratings. -/
noncomputable def winnerDelta (st : EloModel) (m : Match) : ℝ :=
  kEff st m *
    (1 - expected_score (surfEloVal st m.winner m.surface)
      (surfEloVal st m.loser m.surface))

/-- The surface-rating delta applied to the loser:
`k_factor * (0 - loser_expected)` with `loser_expected = 1 - winner_expected`. -/
noncomputable def loserDelta (st : EloModel) (m : Match) : ℝ :=
  kEff st m *
    (0 - (1 - expected_score (surfEloVal st m.winner m.surface)
      (surfEloVal st m.loser m.surface)))

/-- The value of the compound `defaultdict` read
`self.players[name].surface_elos[s]`. -/
def surfRead (ps : List (String × PlayerStats)) (name s : String) : ℝ :=
  (dread (dread ps name defaultStats).2.surface_elos s 1500).2

/-- The state effect of the compound `defaultdict` read
`self.players[name].surface_elos[s]`: the player and the surface entry are
materialised with their defaults when absent. -/
def touchSurface (ps : List (String × PlayerStats)) (name s : String) :
    List (String × PlayerStats) :=
  let r := dread ps name defaultStats
  let r2 := dread r.2.surface_elos s 1500
  aset r.1 name { r.2 with surface_elos := r2.1 }

theorem surfRead_eq (ps : List (String × PlayerStats)) (name s : String) :
    surfRead ps name s = agetD (pget ps name).surface_elos s 1500 := by
  unfold surfRead
  rw [dread_snd, pget_dread_snd]

theorem pget_touchSurface (ps : List (String × PlayerStats)) (name s p : String) :
    pget (touchSurface ps name s) p =
      if name = p then
        { pget ps name with
          surface_elos := (dread (pget ps name).surface_elos s 1500).1 }
      else pget ps p := by
  unfold touchSurface
  rw [pget_aset]
  by_cases h : name = p
  · subst h
    rw [if_pos rfl, if_pos rfl, pget_dread_snd]
  · rw [if_neg h, if_neg h, pget_dread_fst]

theorem hasPlayer_touchSurface (ps : List (String × PlayerStats)) (name s p : String) :
    acontains (touchSurface ps name s) p = (name = p ∨ acontains ps p = true) := by
  unfold touchSurface acontains
  rw [alookup_aset]
  by_cases h : name = p
  · simp [h]
  · simp only [if_neg h]
    cases h2 : alookup ps name with
    | some v =>
        rw [dread_fst_of_present h2]
        simp [eq_iff_iff, h]
    | none =>
        rw [alookup_dread_fst_absent h2, if_neg h]
        simp [eq_iff_iff, h]

/-- All rating/history/head-to-head observations pass through a
`touchSurface` materialisation unchanged. -/
theorem obs_touchSurface (ps : List (String × PlayerStats)) (name s p s0 : String) :
    agetD (pget (touchSurface ps name s) p).surface_elos s0 1500 =
        agetD (pget ps p).surface_elos s0 1500
      ∧ (pget (touchSurface ps name s) p).overall_elo =
        (pget ps p).overall_elo
      ∧ (pget (touchSurface ps name s) p).match_history =
        (pget ps p).match_history
      ∧ (pget (touchSurface ps name s) p).h2h_overall =
        (pget ps p).h2h_overall
      ∧ (pget (touchSurface ps name s) p).h2h_surface =
        (pget ps p).h2h_surface := by
  rw [pget_touchSurface]
  by_cases h : name = p
  · subst h
    rw [if_pos rfl]
    exact ⟨agetD_dread_fst _ _ _ _, rfl, rfl, rfl, rfl⟩
  · rw [if_neg h]
    exact ⟨rfl, rfl, rfl, rfl, rfl⟩

/-- `EloModel._process_match`, translated operation by operation in source
order: read both surface ratings (materialising players and surface
entries), compute expected scores and deltas, update surface ratings,
bleed into overall ratings, append to the bounded histories, and update
the overall and per-surface head-to-head tallies. -/
noncomputable def processMatch (st : EloModel) (m : Match) : EloModel :=
  let w := m.winner
  let l := m.loser
  let s := m.surface
  -- winner_surface_elo = self.players[winner].surface_elos[surface]
  let rW := surfRead st.players w s
  let ps2 := touchSurface st.players w s
  -- loser_surface_elo = self.players[loser].surface_elos[surface]
  let rL := surfRead ps2 l s
  let ps4 := touchSurface ps2 l s
  -- expected scores and deltas
  let eW := expected_score rW rL
  let kf := kEff st m
  let dW := kf * (1 - eW)
  let dL := kf * (0 - (1 - eW))
  -- surface rating updates
  let ps5 := modPlayer ps4 w (fun p =>
    { p with surface_elos := dupdate p.surface_elos s 1500 (fun v => v + dW) })
  let ps6 := modPlayer ps5 l (fun p =>
    { p with surface_elos := dupdate p.surface_elos s 1500 (fun v => v + dL) })
  -- overall rating bleed
  let ps7 := modPlayer ps6 w (fun p =>
    { p with overall_elo := p.overall_elo + st.bleed * dW })
  let ps8 := modPlayer ps7 l (fun p =>
    { p with overall_elo := p.overall_elo + st.bleed * dL })
  -- match history appends
  let ps9 := modPlayer ps8 w (fun p =>
    { p with match_history :=
        dupdate p.match_history s [] (fun h => boundedAppend h ('W', m.date)) })
  let ps10 := modPlayer ps9 l (fun p =>
    { p with match_history :=
        dupdate p.match_history s [] (fun h => boundedAppend h ('L', m.date)) })
  -- overall head-to-head
  let ps11 := modPlayer ps10 w (fun p =>
    { p with h2h_overall :=
        dupdate p.h2h_overall l (0, 0) (fun t => (t.1 + 1, t.2)) })
  let ps12 := modPlayer ps11 l (fun p =>
    { p with h2h_overall :=
        dupdate p.h2h_overall w (0, 0) (fun t => (t.1, t.2 + 1)) })
  -- surface head-to-head
  let ps13 := modPlayer ps12 w (fun p =>
    { p with h2h_surface := (dupdate p.h2h_surface s []
        (fun inner => dupdate inner l (0, 0) (fun t => (t.1 + 1, t.2)))) })
  let ps14 := modPlayer ps13 l (fun p =>
    { p with h2h_surface := (dupdate p.h2h_surface s []
        (fun inner => dupdate inner w (0, 0) (fun t => (t.1, t.2 + 1)))) })
  { st with players := ps14 }

theorem processMatch_rW (st : EloModel) (m : Match) :
    surfRead st.players m.winner m.surface = surfEloVal st m.winner m.surface := by
  rw [surfRead_eq]; rfl

theorem processMatch_rL (st : EloModel) (m : Match) :
    surfRead (touchSurface st.players m.winner m.surface) m.loser m.surface
      = surfEloVal st m.loser m.surface := by
  rw [surfRead_eq]
  exact (obs_touchSurface _ _ _ _ _).1

/-- A player not involved in a match is untouched by `_process_match`. -/
theorem pget_processMatch_other (st : EloModel) (m : Match) (p : String)
    (hw : ¬ m.winner = p) (hl : ¬ m.loser = p) :
    pget (processMatch st m).players p = pget st.players p := by
  show pget _ p = _
  simp only [processMatch]
  simp [pget_modPlayer, pget_touchSurface, hw, hl]

/-- Net effect of `_process_match` on surface ratings: the rating of the
winner for the match surface gains `winner_delta`, that of the loser gains
`loser_delta`, in that order (so a self-match would gain both), and
nothing else moves. -/
theorem surfEloVal_processMatch (st : EloModel) (m : Match) (p s0 : String) :
    surfEloVal (processMatch st m) p s0 =
      surfEloVal st p s0
      + (if p = m.winner ∧ s0 = m.surface then winnerDelta st m else 0)
      + (if p = m.loser ∧ s0 = m.surface then loserDelta st m else 0) := by
  by_cases hpw : p = m.winner <;> by_cases hpl : p = m.loser
  · -- p = winner = loser
    subst hpw
    unfold surfEloVal winnerDelta loserDelta
    simp only [processMatch, processMatch_rW, processMatch_rL]
    simp only [pget_modPlayer, pget_touchSurface, hpl, if_pos rfl]
    by_cases hss : s0 = m.surface
    · simp [hpl, hss, agetD_dupdate, agetD_dread_fst, winnerDelta, loserDelta,
        surfEloVal]
    · have hss' : ¬ m.surface = s0 := fun e => hss e.symm
      simp [hpl, hss, hss', agetD_dupdate, agetD_dread_fst, winnerDelta,
        loserDelta, surfEloVal]
  · -- p = winner ≠ loser
    subst hpw
    have hlw : ¬ m.loser = m.winner := fun e => hpl e.symm
    unfold surfEloVal winnerDelta loserDelta
    simp only [processMatch, processMatch_rW, processMatch_rL]
    simp only [pget_modPlayer, pget_touchSurface, hlw, if_pos rfl]
    by_cases hss : s0 = m.surface
    · simp [hpl, hlw, hss, agetD_dupdate, agetD_dread_fst]
    · have hss' : ¬ m.surface = s0 := fun e => hss e.symm
      simp [hpl, hlw, hss, hss', agetD_dupdate, agetD_dread_fst]
  · -- p = loser ≠ winner
    subst hpl
    have hwl : ¬ m.winner = m.loser := fun e => hpw e.symm
    unfold surfEloVal winnerDelta loserDelta
    simp only [processMatch, processMatch_rW, processMatch_rL]
    simp only [pget_modPlayer, pget_touchSurface, hwl, if_pos rfl]
    by_cases hss : s0 = m.surface
    · simp [hpw, hwl, hss, agetD_dupdate, agetD_dread_fst]
    · have hss' : ¬ m.surface = s0 := fun e => hss e.symm
      simp [hpw, hwl, hss, hss', agetD_dupdate, agetD_dread_fst]
  · -- uninvolved player
    have hw' : ¬ m.winner = p := fun e => hpw e.symm
    have hl' : ¬ m.loser = p := fun e => hpl e.symm
    unfold surfEloVal
    rw [pget_processMatch_other st m p hw' hl']
    simp [hpw, hpl]

/-- Net effect of `_process_match` on overall ratings: each involved player
is nudged by `bleed` times their own surface delta. -/
theorem overallVal_processMatch (st : EloModel) (m : Match) (p : String) :
    overallVal (processMatch st m) p =
      overallVal st p
      + (if p = m.winner then st.bleed * winnerDelta st m else 0)
      + (if p = m.loser then st.bleed * loserDelta st m else 0) := by
  by_cases hpw : p = m.winner <;> by_cases hpl : p = m.loser
  · subst hpw
    unfold overallVal winnerDelta loserDelta
    simp only [processMatch, processMatch_rW, processMatch_rL]
    simp only [pget_modPlayer, pget_touchSurface, hpl, if_pos rfl]
    simp [hpl, winnerDelta, loserDelta, surfEloVal]
  · subst hpw
    have hlw : ¬ m.loser = m.winner := fun e => hpl e.symm
    unfold overallVal winnerDelta loserDelta
    simp only [processMatch, processMatch_rW, processMatch_rL]
    simp only [pget_modPlayer, pget_touchSurface, hlw, if_pos rfl]
    simp [hpl, hlw]
  · subst hpl
    have hwl : ¬ m.winner = m.loser := fun e => hpw e.symm
    unfold overallVal winnerDelta loserDelta
    simp only [processMatch, processMatch_rW, processMatch_rL]
    simp only [pget_modPlayer, pget_touchSurface, hwl, if_pos rfl]
    simp [hpw, hwl]
  · have hw' : ¬ m.winner = p := fun e => hpw e.symm
    have hl' : ¬ m.loser = p := fun e => hpl e.symm
    unfold overallVal
    rw [pget_processMatch_other st m p hw' hl']
    simp [hpw, hpl]

/-- Net effect of `_process_match` on the bounded per-surface histories:
a `('W', date)` entry is appended for the winner and a `('L', date)` entry
for the loser, on the match surface only. -/
theorem historyVal_processMatch (st : EloModel) (m : Match) (p s0 : String) :
    historyVal (processMatch st m) p s0 =
      (let h1 := historyVal st p s0
       let h2 := if p = m.winner ∧ s0 = m.surface then
         boundedAppend h1 ('W', m.date) else h1
       if p = m.loser ∧ s0 = m.surface then
         boundedAppend h2 ('L', m.date) else h2) := by
  by_cases hpw : p = m.winner <;> by_cases hpl : p = m.loser
  · subst hpw
    unfold historyVal
    simp only [processMatch, processMatch_rW, processMatch_rL]
    simp only [pget_modPlayer, pget_touchSurface, hpl, if_pos rfl]
    by_cases hss : s0 = m.surface
    · simp [hpl, hss, agetD_dupdate, historyVal]
    · have hss' : ¬ m.surface = s0 := fun e => hss e.symm
      simp [hpl, hss, hss', agetD_dupdate, historyVal]
  · subst hpw
    have hlw : ¬ m.loser = m.winner := fun e => hpl e.symm
    unfold historyVal
    simp only [processMatch, processMatch_rW, processMatch_rL]
    simp only [pget_modPlayer, pget_touchSurface, hlw, if_pos rfl]
    by_cases hss : s0 = m.surface
    · simp [hpl, hlw, hss, agetD_dupdate]
    · have hss' : ¬ m.surface = s0 := fun e => hss e.symm
      simp [hpl, hlw, hss, hss', agetD_dupdate]
  · subst hpl
    have hwl : ¬ m.winner = m.loser := fun e => hpw e.symm
    unfold historyVal
    simp only [processMatch, processMatch_rW, processMatch_rL]
    simp only [pget_modPlayer, pget_touchSurface, hwl, if_pos rfl]
    by_cases hss : s0 = m.surface
    · simp [hpw, hwl, hss, agetD_dupdate]
    · have hss' : ¬ m.surface = s0 := fun e => hss e.symm
      simp [hpw, hwl, hss, hss', agetD_dupdate]
  · have hw' : ¬ m.winner = p := fun e => hpw e.symm
    have hl' : ¬ m.loser = p := fun e => hpl e.symm
    unfold historyVal
    rw [pget_processMatch_other st m p hw' hl']
    simp [hpw, hpl]

/-- Net effect of `_process_match` on overall head-to-head tallies: the
tally of the winner against the loser gains a win, that of the loser against
the winner gains the paired loss, in the same update. -/
theorem h2hOverallVal_processMatch (st : EloModel) (m : Match) (p q : String) :
    h2hOverallVal (processMatch st m) p q =
      (let t := h2hOverallVal st p q
       let t2 := if p = m.winner ∧ q = m.loser then (t.1 + 1, t.2) else t
       if p = m.loser ∧ q = m.winner then (t2.1, t2.2 + 1) else t2) := by
  by_cases hpw : p = m.winner <;> by_cases hpl : p = m.loser
  · subst hpw
    unfold h2hOverallVal
    simp only [processMatch, processMatch_rW, processMatch_rL]
    simp only [pget_modPlayer, pget_touchSurface, hpl, if_pos rfl]
    by_cases hql : q = m.loser
    · subst hql
      simp [hpl, agetD_dupdate, h2hOverallVal]
    · have hql' : ¬ m.loser = q := fun e => hql e.symm
      have hqw : ¬ q = m.winner := by rw [hpl]; exact hql
      have hqw' : ¬ m.winner = q := fun e => hqw e.symm
      simp [hpl, hql, hql', hqw, hqw', agetD_dupdate, h2hOverallVal]
  · subst hpw
    have hlw : ¬ m.loser = m.winner := fun e => hpl e.symm
    unfold h2hOverallVal
    simp only [processMatch, processMatch_rW, processMatch_rL]
    simp only [pget_modPlayer, pget_touchSurface, hlw, if_pos rfl]
    by_cases hql : q = m.loser
    · subst hql
      simp [hpl, hlw, agetD_dupdate]
    · have hql' : ¬ m.loser = q := fun e => hql e.symm
      simp [hpl, hlw, hql, hql', agetD_dupdate]
  · subst hpl
    have hwl : ¬ m.winner = m.loser := fun e => hpw e.symm
    unfold h2hOverallVal
    simp only [processMatch, processMatch_rW, processMatch_rL]
    simp only [pget_modPlayer, pget_touchSurface, hwl, if_pos rfl]
    by_cases hqw : q = m.winner
    · subst hqw
      simp [hpw, hwl, agetD_dupdate]
    · have hqw' : ¬ m.winner = q := fun e => hqw e.symm
      simp [hpw, hwl, hqw, hqw', agetD_dupdate]
  · have hw' : ¬ m.winner = p := fun e => hpw e.symm
    have hl' : ¬ m.loser = p := fun e => hpl e.symm
    unfold h2hOverallVal
    rw [pget_processMatch_other st m p hw' hl']
    simp [hpw, hpl]

/-- Net effect of `_process_match` on per-surface head-to-head tallies:
as for the overall tallies, restricted to the match surface. -/
theorem h2hSurfVal_processMatch (st : EloModel) (m : Match) (p s0 q : String) :
    h2hSurfVal (processMatch st m) p s0 q =
      (let t := h2hSurfVal st p s0 q
       let t2 := if p = m.winner ∧ s0 = m.surface ∧ q = m.loser then
         (t.1 + 1, t.2) else t
       if p = m.loser ∧ s0 = m.surface ∧ q = m.winner then
         (t2.1, t2.2 + 1) else t2) := by
  by_cases hpw : p = m.winner <;> by_cases hpl : p = m.loser
  · subst hpw
    unfold h2hSurfVal
    simp only [processMatch, processMatch_rW, processMatch_rL]
    simp only [pget_modPlayer, pget_touchSurface, hpl, if_pos rfl]
    by_cases hss : s0 = m.surface
    · by_cases hql : q = m.loser
      · subst hql
        simp [hpl, hss, agetD_dupdate, h2hSurfVal]
      · have hql' : ¬ m.loser = q := fun e => hql e.symm
        have hqw : ¬ q = m.winner := by rw [hpl]; exact hql
        have hqw' : ¬ m.winner = q := fun e => hqw e.symm
        simp [hpl, hss, hql, hql', hqw, hqw', agetD_dupdate, h2hSurfVal]
    · have hss' : ¬ m.surface = s0 := fun e => hss e.symm
      simp [hpl, hss, hss', agetD_dupdate, h2hSurfVal]
  · subst hpw
    have hlw : ¬ m.loser = m.winner := fun e => hpl e.symm
    unfold h2hSurfVal
    simp only [processMatch, processMatch_rW, processMatch_rL]
    simp only [pget_modPlayer, pget_touchSurface, hlw, if_pos rfl]
    by_cases hss : s0 = m.surface
    · by_cases hql : q = m.loser
      · subst hql
        simp [hpl, hlw, hss, agetD_dupdate]
      · have hql' : ¬ m.loser = q := fun e => hql e.symm
        simp [hpl, hlw, hss, hql, hql', agetD_dupdate]
    · have hss' : ¬ m.surface = s0 := fun e => hss e.symm
      simp [hpl, hlw, hss, hss', agetD_dupdate]
  · subst hpl
    have hwl : ¬ m.winner = m.loser := fun e => hpw e.symm
    unfold h2hSurfVal
    simp only [processMatch, processMatch_rW, processMatch_rL]
    simp only [pget_modPlayer, pget_touchSurface, hwl, if_pos rfl]
    by_cases hss : s0 = m.surface
    · by_cases hqw : q = m.winner
      · subst hqw
        simp [hpw, hwl, hss, agetD_dupdate]
      · have hqw' : ¬ m.winner = q := fun e => hqw e.symm
        simp [hpw, hwl, hss, hqw, hqw', agetD_dupdate]
    · have hss' : ¬ m.surface = s0 := fun e => hss e.symm
      simp [hpw, hwl, hss, hss', agetD_dupdate]
  · have hw' : ¬ m.winner = p := fun e => hpw e.symm
    have hl' : ¬ m.loser = p := fun e => hpl e.symm
    unfold h2hSurfVal
    rw [pget_processMatch_other st m p hw' hl']
    simp [hpw, hpl]

/-! ### Query layer (`get_rating`, `head_to_head`, `last_n_record`,
`match_win_prob`, `export_player_snapshot`) -/

/-- `EloModel.get_rating(player, surface=None)`.  Returned in
state-passing style `(value, state)`: the unknown-player and overall
branches perform no `defaultdict` subscripting, but the surface branch
reads `self.players[p].surface_elos[ns]`, which materialises a missing
surface entry of a known player. -/
def getRating (st : EloModel) (player : String) (surface : Option String) :
    ℝ × EloModel :=
  let np := normalizeName player
  match alookup st.players np with
  | none => (1500, st)
  | some stats =>
    match surface with
    | none => (stats.overall_elo, st)
    | some s =>
      let ns := normalizeSurface s
      let r := dread stats.surface_elos ns 1500
      (r.2, { st with players := aset st.players np { stats with surface_elos := r.1 } })

/-- `EloModel.head_to_head(a, b, surface=None)` in state-passing style:
only the state of `a` is consulted; the `defaultdict` reads materialise
missing tally entries of a known `a`. -/
def headToHead (st : EloModel) (a b : String) (surface : Option String) :
    (Nat × Nat) × EloModel :=
  let na := normalizeName a
  let nb := normalizeName b
  match alookup st.players na with
  | none => ((0, 0), st)
  | some stats =>
    match surface with
    | none =>
      let r := dread stats.h2h_overall nb (0, 0)
      (r.2, { st with players := aset st.players na { stats with h2h_overall := r.1 } })
    | some s =>
      let ns := normalizeSurface s
      let r := dread stats.h2h_surface ns []
      let r2 := dread r.2 nb (0, 0)
      (r2.2, { st with players := (aset st.players na
        { stats with h2h_surface := aset r.1 ns r2.1 }) })

/-- Python slice `xs[-n:]` (note `xs[-0:]` is the whole list). -/
def pySliceLast {A : Type} (l : List A) (n : Nat) : List A :=
  if n = 0 then l else l.drop (l.length - n)

/-- `EloModel.last_n_record(player, surface, n)` in state-passing style:
the history read `self.players[p].match_history[ns]` materialises a
missing (empty) history entry of a known player. -/
def lastNRecord (st : EloModel) (player surface : String) (n : Nat) :
    (Nat × Nat) × EloModel :=
  let np := normalizeName player
  let ns := normalizeSurface surface
  match alookup st.players np with
  | none => ((0, 0), st)
  | some stats =>
    let r := dread stats.match_history ns []
    let recent := if n ≤ r.2.length then pySliceLast r.2 n else r.2
    let wins := (recent.filter (fun e => e.1 == 'W')).length
    ((wins, recent.length - wins),
      { st with players := aset st.players np { stats with match_history := r.1 } })

/-- The guard of `match_win_prob`:
`p in self.players and ns in self.players[p].surface_elos`. -/
def hasSurface (ps : List (String × PlayerStats)) (p s : String) : Bool :=
  match alookup ps p with
  | some stats => acontains stats.surface_elos s
  | none => false

/-- `EloModel.match_win_prob(a, b, surface)` in state-passing style.  When
both players have an entry for the normalised surface the surface ratings
are read (through `defaultdict` subscripts that hit present keys);
otherwise both fall back to `self.get_rating(norm, None)`. -/
noncomputable def matchWinProb (st : EloModel) (a b surface : String) :
    ℝ × EloModel :=
  let na := normalizeName a
  let nb := normalizeName b
  let ns := normalizeSurface surface
  if hasSurface st.players na ns && hasSurface st.players nb ns then
    let r1 := dread st.players na defaultStats
    let r2 := dread r1.2.surface_elos ns 1500
    let ps2 := aset r1.1 na { r1.2 with surface_elos := r2.1 }
    let st1 := { st with players := ps2 }
    let r3 := dread st1.players nb defaultStats
    let r4 := dread r3.2.surface_elos ns 1500
    let ps4 := aset r3.1 nb { r3.2 with surface_elos := r4.1 }
    (expected_score r2.2 r4.2, { st1 with players := ps4 })
  else
    let ra := getRating st na none
    let rb := getRating ra.2 nb none
    (expected_score ra.1 rb.1, rb.2)

/-- `EloModel.export_player_snapshot(player, surface)`: surface rating,
overall rating and the last-10 record (kept as a numeric pair; the source
formats it as a string), with the state effects of the underlying queries
threaded through. -/
noncomputable def exportPlayerSnapshot (st : EloModel) (player surface : String) :
    (ℝ × ℝ × (Nat × Nat)) × EloModel :=
  let np := normalizeName player
  let ns := normalizeSurface surface
  let r1 := getRating st np (some ns)
  let r2 := getRating r1.2 np none
  let r3 := lastNRecord r2.2 np ns 10
  ((r1.1, r2.1, r3.1), r3.2)

/-! ### Query characterizations and state effects -/

theorem getRating_none_state (st : EloModel) (p : String) :
    (getRating st p none).2 = st := by
  unfold getRating
  cases h : alookup st.players (normalizeName p) <;> simp [h]

theorem getRating_unknown (st : EloModel) (p : String) (s : Option String)
    (h : alookup st.players (normalizeName p) = none) :
    getRating st p s = (1500, st) := by
  simp only [getRating, h]

/-- The value returned by `get_rating` is the observation function of the
state (the defaults agree, so known and unknown players are uniform). -/
theorem getRating_fst (st : EloModel) (p : String) (s : Option String) :
    (getRating st p s).1 =
      match s with
      | none => overallVal st (normalizeName p)
      | some s => surfEloVal st (normalizeName p) (normalizeSurface s) := by
  unfold getRating
  cases h : alookup st.players (normalizeName p) with
  | none =>
      cases s <;> simp [overallVal, surfEloVal, pget, agetD, h, defaultStats]
  | some stats =>
      cases s with
      | none => simp [overallVal, pget, h]
      | some s => simp [surfEloVal, pget, agetD, h]

theorem headToHead_fst (st : EloModel) (a b : String) (s : Option String) :
    (headToHead st a b s).1 =
      match s with
      | none => h2hOverallVal st (normalizeName a) (normalizeName b)
      | some s =>
          h2hSurfVal st (normalizeName a) (normalizeSurface s) (normalizeName b) := by
  unfold headToHead
  cases h : alookup st.players (normalizeName a) with
  | none =>
      cases s <;> simp [h2hOverallVal, h2hSurfVal, pget, agetD, h, defaultStats]
  | some stats =>
      cases s with
      | none => simp [h2hOverallVal, pget, agetD, h]
      | some s => simp [h2hSurfVal, pget, agetD, h]

theorem lastNRecord_fst (st : EloModel) (p surface : String) (n : Nat) :
    (lastNRecord st p surface n).1 =
      (let hist := historyVal st (normalizeName p) (normalizeSurface surface)
       let recent := if n ≤ hist.length then pySliceLast hist n else hist
       let wins := (recent.filter (fun e => e.1 == 'W')).length
       (wins, recent.length - wins)) := by
  unfold lastNRecord
  cases h : alookup st.players (normalizeName p) with
  | none =>
      simp [historyVal, pget, agetD, h, defaultStats, pySliceLast]
  | some stats =>
      simp [historyVal, pget, agetD, h]

/-- All queries preserve every rating, head-to-head and history value, the
player key set, and the scalar fields of the engine. -/
def ObsPreserved (st st' : EloModel) : Prop :=
  (∀ p, hasPlayer st' p = hasPlayer st p)
  ∧ (∀ p, overallVal st' p = overallVal st p)
  ∧ (∀ p s, surfEloVal st' p s = surfEloVal st p s)
  ∧ (∀ p q, h2hOverallVal st' p q = h2hOverallVal st p q)
  ∧ (∀ p s q, h2hSurfVal st' p s q = h2hSurfVal st p s q)
  ∧ (∀ p s, historyVal st' p s = historyVal st p s)
  ∧ st'.match_list = st.match_list ∧ st'.max_date = st.max_date
  ∧ st'.k = st.k ∧ st'.bleed = st.bleed

theorem obsPreserved_refl (st : EloModel) : ObsPreserved st st :=
  ⟨fun _ => Eq.refl _, fun _ => Eq.refl _, fun _ _ => Eq.refl _,
    fun _ _ => Eq.refl _, fun _ _ _ => Eq.refl _, fun _ _ => Eq.refl _,
    Eq.refl _, Eq.refl _, Eq.refl _, Eq.refl _⟩

theorem acontains_aset_present {V : Type} {l : List (String × V)} {k : String}
    {v : V} (h : alookup l k = some v) (w : V) (p : String) :
    acontains (aset l k w) p = acontains l p := by
  unfold acontains
  rw [alookup_aset]
  by_cases hk : k = p
  · subst hk
    simp [h]
  · rw [if_neg hk]

theorem getRating_surface_preserves (st : EloModel) (p s : String) :
    ObsPreserved st (getRating st p (some s)).2 := by
  unfold getRating
  cases h : alookup st.players (normalizeName p) with
  | none =>
      simp only [h]
      exact obsPreserved_refl st
  | some stats =>
      simp only [h]
      have hp : pget st.players (normalizeName p) = stats := by
        unfold pget
        rw [h]
        rfl
      unfold ObsPreserved
      refine ⟨?_, ?_, ?_, ?_, ?_, ?_, Eq.refl _, Eq.refl _, Eq.refl _, Eq.refl _⟩
      · intro q
        exact acontains_aset_present h _ q
      · intro q
        simp only [overallVal, pget_aset]
        by_cases hq : normalizeName p = q
        · subst hq
          simp [hp]
        · simp [hq]
      · intro q s0
        simp only [surfEloVal, pget_aset]
        by_cases hq : normalizeName p = q
        · subst hq
          simp [hp, agetD_dread_fst]
        · simp [hq]
      · intro q r
        simp only [h2hOverallVal, pget_aset]
        by_cases hq : normalizeName p = q
        · subst hq
          simp [hp]
        · simp [hq]
      · intro q s0 r
        simp only [h2hSurfVal, pget_aset]
        by_cases hq : normalizeName p = q
        · subst hq
          simp [hp]
        · simp [hq]
      · intro q s0
        simp only [historyVal, pget_aset]
        by_cases hq : normalizeName p = q
        · subst hq
          simp [hp]
        · simp [hq]

theorem headToHead_preserves (st : EloModel) (a b : String)
    (surface : Option String) :
    ObsPreserved st (headToHead st a b surface).2 := by
  unfold headToHead
  cases h : alookup st.players (normalizeName a) with
  | none =>
      cases surface <;> simp only [h] <;> exact obsPreserved_refl st
  | some stats =>
      have hp : pget st.players (normalizeName a) = stats := by
        unfold pget
        rw [h]
        rfl
      cases surface with
      | none =>
          simp only [h]
          unfold ObsPreserved
          refine ⟨?_, ?_, ?_, ?_, ?_, ?_, Eq.refl _, Eq.refl _, Eq.refl _, Eq.refl _⟩
          · intro q
            exact acontains_aset_present h _ q
          · intro q
            simp only [overallVal, pget_aset]
            by_cases hq : normalizeName a = q
            · subst hq
              simp [hp]
            · simp [hq]
          · intro q s0
            simp only [surfEloVal, pget_aset]
            by_cases hq : normalizeName a = q
            · subst hq
              simp [hp]
            · simp [hq]
          · intro q r
            simp only [h2hOverallVal, pget_aset]
            by_cases hq : normalizeName a = q
            · subst hq
              simp [hp, agetD_dread_fst]
            · simp [hq]
          · intro q s0 r
            simp only [h2hSurfVal, pget_aset]
            by_cases hq : normalizeName a = q
            · subst hq
              simp [hp]
            · simp [hq]
          · intro q s0
            simp only [historyVal, pget_aset]
            by_cases hq : normalizeName a = q
            · subst hq
              simp [hp]
            · simp [hq]
      | some s =>
          simp only [h]
          unfold ObsPreserved
          refine ⟨?_, ?_, ?_, ?_, ?_, ?_, Eq.refl _, Eq.refl _, Eq.refl _, Eq.refl _⟩
          · intro q
            exact acontains_aset_present h _ q
          · intro q
            simp only [overallVal, pget_aset]
            by_cases hq : normalizeName a = q
            · subst hq
              simp [hp]
            · simp [hq]
          · intro q s0
            simp only [surfEloVal, pget_aset]
            by_cases hq : normalizeName a = q
            · subst hq
              simp [hp]
            · simp [hq]
          · intro q r
            simp only [h2hOverallVal, pget_aset]
            by_cases hq : normalizeName a = q
            · subst hq
              simp [hp]
            · simp [hq]
          · intro q s0 r
            simp only [h2hSurfVal, pget_aset]
            by_cases hq : normalizeName a = q
            · subst hq
              simp only [if_pos (Eq.refl _), hp, if_true]
              rw [agetD_aset]
              by_cases hs0 : normalizeSurface s = s0
              · subst hs0
                rw [if_pos (Eq.refl _), dread_snd, agetD_dread_fst]
              · rw [if_neg hs0,
                  agetD_dread_fst stats.h2h_surface (normalizeSurface s) [] s0]
            · simp [hq]
          · intro q s0
            simp only [historyVal, pget_aset]
            by_cases hq : normalizeName a = q
            · subst hq
              simp [hp]
            · simp [hq]

theorem lastNRecord_preserves (st : EloModel) (p surface : String) (n : Nat) :
    ObsPreserved st (lastNRecord st p surface n).2 := by
  unfold lastNRecord
  cases h : alookup st.players (normalizeName p) with
  | none =>
      simp only [h]
      exact obsPreserved_refl st
  | some stats =>
      simp only [h]
      have hp : pget st.players (normalizeName p) = stats := by
        unfold pget
        rw [h]
        rfl
      unfold ObsPreserved
      refine ⟨?_, ?_, ?_, ?_, ?_, ?_, Eq.refl _, Eq.refl _, Eq.refl _, Eq.refl _⟩
      · intro q
        exact acontains_aset_present h _ q
      · intro q
        simp only [overallVal, pget_aset]
        by_cases hq : normalizeName p = q
        · subst hq
          simp [hp]
        · simp [hq]
      · intro q s0
        simp only [surfEloVal, pget_aset]
        by_cases hq : normalizeName p = q
        · subst hq
          simp [hp]
        · simp [hq]
      · intro q r
        simp only [h2hOverallVal, pget_aset]
        by_cases hq : normalizeName p = q
        · subst hq
          simp [hp]
        · simp [hq]
      · intro q s0 r
        simp only [h2hSurfVal, pget_aset]
        by_cases hq : normalizeName p = q
        · subst hq
          simp [hp]
        · simp [hq]
      · intro q s0
        simp only [historyVal, pget_aset]
        by_cases hq : normalizeName p = q
        · subst hq
          simp [hp, agetD_dread_fst]
        · simp [hq]

theorem PlayerStats.eta (x : PlayerStats) :
    ({ overall_elo := x.overall_elo, surface_elos := x.surface_elos,
       match_history := x.match_history, h2h_overall := x.h2h_overall,
       h2h_surface := x.h2h_surface } : PlayerStats) = x := rfl

theorem hasSurface_elim {ps : List (String × PlayerStats)} {p s : String}
    (h : hasSurface ps p s = true) :
    ∃ stats, alookup ps p = some stats ∧
      ∃ v, alookup stats.surface_elos s = some v := by
  unfold hasSurface at h
  cases hp : alookup ps p with
  | none =>
      rw [hp] at h
      have h2 : false = true := h
      exact absurd h2 (by simp)
  | some stats =>
      rw [hp] at h
      have h2 : (alookup stats.surface_elos s).isSome = true := h
      cases hv : alookup stats.surface_elos s with
      | none => rw [hv] at h2; exact absurd h2 (by simp)
      | some v => exact ⟨stats, Eq.refl _, v, hv⟩

/-- `match_win_prob` has no state effect at all: its reads hit only
present keys (guarded by the short-circuit condition) or go through the
non-materialising overall branch of `get_rating`. -/
theorem matchWinProb_state (st : EloModel) (a b surface : String) :
    (matchWinProb st a b surface).2 = st := by
  unfold matchWinProb
  by_cases hcond : (hasSurface st.players (normalizeName a) (normalizeSurface surface)
      && hasSurface st.players (normalizeName b) (normalizeSurface surface)) = true
  · rw [if_pos hcond]
    have hab := hcond
    rw [Bool.and_eq_true] at hab
    obtain ⟨ha, hb⟩ := hab
    obtain ⟨sa, hsa, va, hva⟩ := hasSurface_elim ha
    simp only [dread_of_present hsa, dread_of_present hva, PlayerStats.eta,
      aset_of_present hsa]
    obtain ⟨sb, hsb, vb, hvb⟩ := hasSurface_elim hb
    simp only [dread_of_present hsb, dread_of_present hvb, PlayerStats.eta,
      aset_of_present hsb]
  · rw [if_neg hcond]
    simp only [getRating_none_state]

/-- The value of `match_win_prob`: surface ratings exactly when both
players have a surface entry, overall fallback for both otherwise. -/
theorem matchWinProb_fst (st : EloModel) (a b surface : String) :
    (matchWinProb st a b surface).1 =
      if hasSurface st.players (normalizeName a) (normalizeSurface surface)
          && hasSurface st.players (normalizeName b) (normalizeSurface surface) then
        expected_score
          (surfEloVal st (normalizeName a) (normalizeSurface surface))
          (surfEloVal st (normalizeName b) (normalizeSurface surface))
      else
        expected_score (getRating st (normalizeName a) none).1
          (getRating st (normalizeName b) none).1 := by
  unfold matchWinProb
  by_cases hcond : (hasSurface st.players (normalizeName a) (normalizeSurface surface)
      && hasSurface st.players (normalizeName b) (normalizeSurface surface)) = true
  · rw [if_pos hcond, if_pos hcond]
    have hab := hcond
    rw [Bool.and_eq_true] at hab
    obtain ⟨ha, hb⟩ := hab
    obtain ⟨sa, hsa, va, hva⟩ := hasSurface_elim ha
    simp only [dread_of_present hsa, dread_of_present hva, PlayerStats.eta,
      aset_of_present hsa]
    obtain ⟨sb, hsb, vb, hvb⟩ := hasSurface_elim hb
    simp only [dread_of_present hsb, dread_of_present hvb, PlayerStats.eta,
      aset_of_present hsb]
    have hva' : surfEloVal st (normalizeName a) (normalizeSurface surface) = va := by
      unfold surfEloVal pget agetD
      rw [hsa]
      simp only [Option.getD_some]
      rw [hva]
      simp only [Option.getD_some]
    have hvb' : surfEloVal st (normalizeName b) (normalizeSurface surface) = vb := by
      unfold surfEloVal pget agetD
      rw [hsb]
      simp only [Option.getD_some]
      rw [hvb]
      simp only [Option.getD_some]
    rw [hva', hvb']
  · rw [if_neg hcond, if_neg hcond]
    simp only [getRating_none_state]

/-! ### Claim C1: query side effects -/

/-- A one-match engine state: `A` beat `B` on hard court.  (Date 738521 is
2023-01-01 as a proleptic Gregorian ordinal; `initModel.max_date = none`,
matching a direct `_process_match` call.) -/
noncomputable def mC1 : Match :=
  { date := 738521, surface := "hard", winner := "A", loser := "B",
    score := "6-4 6-2", best_of := 3, round_name := "F" }

noncomputable def stC1 : EloModel := processMatch initModel mC1

/-- The number of surface entries player `A` holds in a state. -/
def surfCountA (st : EloModel) : Nat :=
  ((alookup st.players "A").getD defaultStats).surface_elos.length

theorem stC1_surfCount : surfCountA stC1 = 1 := by
  rfl

theorem stC1_getRating_surfCount :
    surfCountA (getRating stC1 "A" (some "clay")).2 = 2 := by
  rfl

/-- **C1 (counterexample)** — `get_rating` with a surface is *not*
side-effect-free: on the one-match state, `get_rating("A", "clay")`
materialises a `"clay" ↦ 1500.0` entry in the `surface_elos` of `A`
(`defaultdict` insert-on-read), so the resulting state differs from the
input state. -/
theorem c1_counterexample : (getRating stC1 "A" (some "clay")).2 ≠ stC1 := by
  intro h
  have h2 : surfCountA (getRating stC1 "A" (some "clay")).2 = surfCountA stC1 :=
    congrArg surfCountA h
  rw [stC1_surfCount, stC1_getRating_surfCount] at h2
  exact absurd h2 (by decide)

/-- **C1 (amended)** — What does hold: `get_rating` without a surface and
`match_win_prob` leave the state exactly unchanged; `get_rating` on an
unknown player returns `1500.0` and leaves the state exactly unchanged
(no entry is materialised for the player); the remaining queries
(`get_rating` with a surface, `head_to_head`, `last_n_record`) preserve
the player key set and every rating, head-to-head and history value —
they can only materialise default entries inside the inner maps of an
existing player — and the answers of `get_rating`, `head_to_head` and
`last_n_record` are invariant under such preserved states. -/
theorem c1_query_effects (st : EloModel) :
    (∀ p, (getRating st p none).2 = st)
    ∧ (∀ a b s, (matchWinProb st a b s).2 = st)
    ∧ (∀ p s, alookup st.players (normalizeName p) = none →
        getRating st p s = (1500, st))
    ∧ (∀ p s, ObsPreserved st (getRating st p (some s)).2)
    ∧ (∀ a b s, ObsPreserved st (headToHead st a b s).2)
    ∧ (∀ p s n, ObsPreserved st (lastNRecord st p s n).2)
    ∧ (∀ st', ObsPreserved st st' →
        (∀ p s, (getRating st' p s).1 = (getRating st p s).1)
        ∧ (∀ a b s, (headToHead st' a b s).1 = (headToHead st a b s).1)
        ∧ (∀ p s n, (lastNRecord st' p s n).1 = (lastNRecord st p s n).1)) := by
  refine ⟨getRating_none_state st, matchWinProb_state st,
    getRating_unknown st, getRating_surface_preserves st,
    headToHead_preserves st, lastNRecord_preserves st, ?_⟩
  intro st' h
  obtain ⟨hkeys, hov, hsurf, hh2o, hh2s, hhist, _, _, _, _⟩ := h
  refine ⟨?_, ?_, ?_⟩
  · intro p s
    rw [getRating_fst, getRating_fst]
    cases s with
    | none => exact hov _
    | some s => exact hsurf _ _
  · intro a b s
    rw [headToHead_fst, headToHead_fst]
    cases s with
    | none => exact hh2o _ _
    | some s => exact hh2s _ _ _
  · intro p s n
    rw [lastNRecord_fst, lastNRecord_fst]
    simp only [hhist]

/-- Witness for C1 (amended): instantiated on the empty engine for the
unknown player "Unknown Player". -/
theorem c1_query_effects_witness :
    alookup initModel.players (normalizeName "Unknown Player") = none
    ∧ getRating initModel "Unknown Player" (some "hard") = (1500, initModel) :=
  ⟨rfl, (c1_query_effects initModel).2.2.1 "Unknown Player" (some "hard") rfl⟩

/-! ### Claims C2, C3, C4, C5, C10 -/

/-- **C2** — per-match rating deltas: the winner gains exactly
`K_eff * (1 - E(r_W, r_L))` on the match surface, the loser loses exactly
the same amount (equivalently gains `K_eff * (0 - E(r_L, r_W))`), and each
overall rating moves by exactly `bleed` times the same surface delta of
that player — it gets no expected-score computation of its own. -/
theorem c2_deltas (st : EloModel) (m : Match) (h : m.winner ≠ m.loser) :
    surfEloVal (processMatch st m) m.winner m.surface =
      surfEloVal st m.winner m.surface + winnerDelta st m
    ∧ surfEloVal (processMatch st m) m.loser m.surface =
      surfEloVal st m.loser m.surface - winnerDelta st m
    ∧ loserDelta st m = - winnerDelta st m
    ∧ loserDelta st m =
        kEff st m * (0 - expected_score (surfEloVal st m.loser m.surface)
          (surfEloVal st m.winner m.surface))
    ∧ overallVal (processMatch st m) m.winner =
      overallVal st m.winner + st.bleed * winnerDelta st m
    ∧ overallVal (processMatch st m) m.loser =
      overallVal st m.loser + st.bleed * loserDelta st m := by
  have hlw : ¬ m.loser = m.winner := fun e => h e.symm
  have hwl : ¬ m.winner = m.loser := h
  have hcomp := expected_score_complement
    (surfEloVal st m.winner m.surface) (surfEloVal st m.loser m.surface)
  have hnw : ¬ (m.winner = m.loser ∧ m.surface = m.surface) := fun hc => hwl hc.1
  have hnl : ¬ (m.loser = m.winner ∧ m.surface = m.surface) := fun hc => hlw hc.1
  refine ⟨?_, ?_, ?_, ?_, ?_, ?_⟩
  · rw [surfEloVal_processMatch, if_pos ⟨Eq.refl _, Eq.refl _⟩, if_neg hnw]
    ring
  · rw [surfEloVal_processMatch, if_neg hnl, if_pos ⟨Eq.refl _, Eq.refl _⟩]
    unfold loserDelta winnerDelta
    ring
  · unfold loserDelta winnerDelta
    ring
  · unfold loserDelta
    have hflip : expected_score (surfEloVal st m.loser m.surface)
        (surfEloVal st m.winner m.surface)
        = 1 - expected_score (surfEloVal st m.winner m.surface)
          (surfEloVal st m.loser m.surface) := by linarith
    rw [hflip]
  · rw [overallVal_processMatch, if_pos (Eq.refl _), if_neg hwl]
    ring
  · rw [overallVal_processMatch, if_neg hlw, if_pos (Eq.refl _)]
    ring

/-- Witness for C2: the one-match scenario. -/
theorem c2_deltas_witness :
    mC1.winner ≠ mC1.loser
    ∧ surfEloVal (processMatch initModel mC1) mC1.winner mC1.surface =
        surfEloVal initModel mC1.winner mC1.surface + winnerDelta initModel mC1 :=
  ⟨by decide, (c2_deltas initModel mC1 (by decide)).1⟩

theorem hasSurface_of_unknown {ps : List (String × PlayerStats)} {p : String}
    (h : alookup ps p = none) (s : String) : hasSurface ps p s = false := by
  unfold hasSurface
  rw [h]

/-- **C3** — `match_win_prob` uses the two surface ratings exactly when
both players have an entry for the normalised surface and otherwise falls
back to both overall ratings (all-or-nothing); two unknown players get
probability `1/2`, and `get_rating` of an unknown player is `1500.0`. -/
theorem c3_fallback (st : EloModel) (a b s : String) :
    ((hasSurface st.players (normalizeName a) (normalizeSurface s)
        && hasSurface st.players (normalizeName b) (normalizeSurface s)) = true →
      (matchWinProb st a b s).1 =
        expected_score (surfEloVal st (normalizeName a) (normalizeSurface s))
          (surfEloVal st (normalizeName b) (normalizeSurface s)))
    ∧ (¬ (hasSurface st.players (normalizeName a) (normalizeSurface s)
        && hasSurface st.players (normalizeName b) (normalizeSurface s)) = true →
      (matchWinProb st a b s).1 =
        expected_score (getRating st (normalizeName a) none).1
          (getRating st (normalizeName b) none).1)
    ∧ (alookup st.players (normalizeName a) = none →
       alookup st.players (normalizeName b) = none →
        (matchWinProb st a b s).1 = 1 / 2)
    ∧ (alookup st.players (normalizeName a) = none →
        (getRating st a (some s)).1 = 1500 ∧ (getRating st a none).1 = 1500) := by
  refine ⟨?_, ?_, ?_, ?_⟩
  · intro hc
    rw [matchWinProb_fst, if_pos hc]
  · intro hc
    rw [matchWinProb_fst, if_neg hc]
  · intro hna hnb
    have hfalse : ¬ (hasSurface st.players (normalizeName a) (normalizeSurface s)
        && hasSurface st.players (normalizeName b) (normalizeSurface s)) = true := by
      rw [hasSurface_of_unknown hna]
      simp
    have ha2 : alookup st.players (normalizeName (normalizeName a)) = none := by
      rw [normalizeName_idem]
      exact hna
    have hb2 : alookup st.players (normalizeName (normalizeName b)) = none := by
      rw [normalizeName_idem]
      exact hnb
    rw [matchWinProb_fst, if_neg hfalse,
      getRating_unknown st (normalizeName a) none ha2,
      getRating_unknown st (normalizeName b) none hb2]
    exact expected_score_self 1500
  · intro hna
    rw [getRating_unknown st a (some s) hna, getRating_unknown st a none hna]
    exact ⟨Eq.refl _, Eq.refl _⟩

/-- Witness for C3: cold start on the empty engine. -/
theorem c3_fallback_witness :
    alookup initModel.players (normalizeName "Unknown A") = none
    ∧ alookup initModel.players (normalizeName "Unknown B") = none
    ∧ (matchWinProb initModel "Unknown A" "Unknown B" "hard").1 = 1 / 2 :=
  ⟨rfl, rfl,
    (c3_fallback initModel "Unknown A" "Unknown B" "hard").2.2.1 rfl rfl⟩

/-- **C4** — head-to-head tallies are symmetric complements maintained in
the same update: a processed match increments the win count of the winner
against the loser and the loss count of the loser against the winner,
both overall and for that surface. -/
theorem c4_h2h (st : EloModel) (m : Match) (h : m.winner ≠ m.loser)
    (hw : normalizeName m.winner = m.winner)
    (hl : normalizeName m.loser = m.loser)
    (hs : normalizeSurface m.surface = m.surface) :
    (headToHead (processMatch st m) m.winner m.loser (some m.surface)).1
      = ((headToHead st m.winner m.loser (some m.surface)).1.1 + 1,
         (headToHead st m.winner m.loser (some m.surface)).1.2)
    ∧ (headToHead (processMatch st m) m.loser m.winner (some m.surface)).1
      = ((headToHead st m.loser m.winner (some m.surface)).1.1,
         (headToHead st m.loser m.winner (some m.surface)).1.2 + 1)
    ∧ (headToHead (processMatch st m) m.winner m.loser none).1
      = ((headToHead st m.winner m.loser none).1.1 + 1,
         (headToHead st m.winner m.loser none).1.2)
    ∧ (headToHead (processMatch st m) m.loser m.winner none).1
      = ((headToHead st m.loser m.winner none).1.1,
         (headToHead st m.loser m.winner none).1.2 + 1) := by
  have hlw : ¬ m.loser = m.winner := fun e => h e.symm
  have hwl : ¬ m.winner = m.loser := h
  refine ⟨?_, ?_, ?_, ?_⟩
  · rw [headToHead_fst, headToHead_fst]
    simp only [hw, hl, hs]
    rw [h2hSurfVal_processMatch]
    simp [hwl, hlw]
  · rw [headToHead_fst, headToHead_fst]
    simp only [hw, hl, hs]
    rw [h2hSurfVal_processMatch]
    simp [hwl, hlw]
  · rw [headToHead_fst, headToHead_fst]
    simp only [hw, hl]
    rw [h2hOverallVal_processMatch]
    simp [hwl, hlw]
  · rw [headToHead_fst, headToHead_fst]
    simp only [hw, hl]
    rw [h2hOverallVal_processMatch]
    simp [hwl, hlw]

/-- A clay match between fresh players, for the C4 witness. -/
noncomputable def mC4 : Match :=
  { date := 738521, surface := "clay", winner := "A", loser := "B",
    score := "7-5 6-3", best_of := 3, round_name := "SF" }

/-- Witness for C4: folding one clay match where `A` beats `B` into the
empty engine yields `head_to_head(A,B,"clay") = (1,0)`,
`head_to_head(B,A,"clay") = (0,1)` and `head_to_head(A,B) = (1,0)`. -/
theorem c4_h2h_witness :
    mC4.winner ≠ mC4.loser
    ∧ (headToHead (processMatch initModel mC4) "A" "B" (some "clay")).1 = (1, 0)
    ∧ (headToHead (processMatch initModel mC4) "B" "A" (some "clay")).1 = (0, 1)
    ∧ (headToHead (processMatch initModel mC4) "A" "B" none).1 = (1, 0) := by
  have h := c4_h2h initModel mC4 (by decide) (by decide) (by decide) (by decide)
  exact ⟨by decide, h.1.trans (by rfl), h.2.1.trans (by rfl),
    h.2.2.1.trans (by rfl)⟩

/-- **C5** — zero-sum expectation: `E(ra,rb) + E(rb,ra) = 1` exactly over
the exact-real idealisation, and consequently
`match_win_prob(a,b,s) + match_win_prob(b,a,s) = 1` for every state,
because the surface-versus-overall fallback condition is symmetric. -/
theorem c5_zero_sum (ra rb : ℝ) (st : EloModel) (a b s : String) :
    expected_score ra rb + expected_score rb ra = 1
    ∧ (matchWinProb st a b s).1 + (matchWinProb st b a s).1 = 1 := by
  refine ⟨expected_score_complement ra rb, ?_⟩
  rw [matchWinProb_fst, matchWinProb_fst]
  by_cases hcond : (hasSurface st.players (normalizeName a) (normalizeSurface s)
      && hasSurface st.players (normalizeName b) (normalizeSurface s)) = true
  · have hcond2 : (hasSurface st.players (normalizeName b) (normalizeSurface s)
        && hasSurface st.players (normalizeName a) (normalizeSurface s)) = true := by
      rw [Bool.and_comm]
      exact hcond
    rw [if_pos hcond, if_pos hcond2]
    exact expected_score_complement _ _
  · have hcond2 : ¬ (hasSurface st.players (normalizeName b) (normalizeSurface s)
        && hasSurface st.players (normalizeName a) (normalizeSurface s)) = true := by
      rw [Bool.and_comm]
      exact hcond
    rw [if_neg hcond, if_neg hcond2]
    exact expected_score_complement _ _

theorem sum_map_zero_of_not_mem (c : ℝ) (w : String) :
    ∀ L : List String, w ∉ L →
      (L.map (fun p => if p = w then c else 0)).sum = 0 := by
  intro L
  induction L with
  | nil => intro _; rfl
  | cons hd t ih =>
      intro hmem
      have hne : hd ≠ w := fun e => hmem (e ▸ List.mem_cons_self hd t)
      have ht : w ∉ t := fun e => hmem (List.mem_cons_of_mem hd e)
      simp [hne, ih ht]

theorem sum_map_indicator (c : ℝ) (w : String) :
    ∀ L : List String, L.Nodup → w ∈ L →
      (L.map (fun p => if p = w then c else 0)).sum = c := by
  intro L
  induction L with
  | nil => intro _ hmem; exact absurd hmem (List.not_mem_nil w)
  | cons hd t ih =>
      intro hnd hmem
      by_cases hhd : hd = w
      · subst hhd
        have hnt : hd ∉ t := (List.nodup_cons.mp hnd).1
        simp [sum_map_zero_of_not_mem c hd t hnt]
      · have hmt : w ∈ t := by
          cases List.mem_cons.mp hmem with
          | inl e => exact absurd e.symm hhd
          | inr e => exact e
        simp [hhd, ih (List.nodup_cons.mp hnd).2 hmt]

theorem sum_map_add_distrib (f g : String → ℝ) :
    ∀ L : List String,
      (L.map (fun p => f p + g p)).sum = (L.map f).sum + (L.map g).sum := by
  intro L
  induction L with
  | nil => simp
  | cons hd t ih => simp [ih]; ring

/-- **C10** — rating-mass conservation: over any duplicate-free roster
containing the winner and the loser, the sum of surface ratings for any
surface and the sum of overall ratings (absent players counted at the
1500.0 default) are unchanged by `_process_match`, because
`loser_delta = -winner_delta` exactly. -/
theorem c10_conservation (st : EloModel) (m : Match) (L : List String)
    (hnd : L.Nodup) (hw : m.winner ∈ L) (hl : m.loser ∈ L) (s0 : String) :
    ((L.map (fun p => surfEloVal (processMatch st m) p s0)).sum
      = (L.map (fun p => surfEloVal st p s0)).sum)
    ∧ ((L.map (fun p => overallVal (processMatch st m) p)).sum
      = (L.map (fun p => overallVal st p)).sum)
    ∧ loserDelta st m = - winnerDelta st m := by
  have hdelta : loserDelta st m = - winnerDelta st m := by
    unfold loserDelta winnerDelta
    ring
  refine ⟨?_, ?_, hdelta⟩
  · by_cases hss : s0 = m.surface
    · have hmap : (L.map (fun p => surfEloVal (processMatch st m) p s0)) =
          L.map (fun p => surfEloVal st p s0
            + ((if p = m.winner then winnerDelta st m else 0)
              + (if p = m.loser then loserDelta st m else 0))) := by
        apply List.map_congr_left
        intro p _
        rw [surfEloVal_processMatch]
        simp only [hss, eq_self_iff_true, and_true]
        ring
      rw [hmap, sum_map_add_distrib, sum_map_add_distrib,
        sum_map_indicator _ _ L hnd hw, sum_map_indicator _ _ L hnd hl,
        hdelta]
      ring
    · have hmap : (L.map (fun p => surfEloVal (processMatch st m) p s0)) =
          L.map (fun p => surfEloVal st p s0) := by
        apply List.map_congr_left
        intro p _
        rw [surfEloVal_processMatch]
        have h1 : ¬ (p = m.winner ∧ s0 = m.surface) := fun hc => hss hc.2
        have h2 : ¬ (p = m.loser ∧ s0 = m.surface) := fun hc => hss hc.2
        rw [if_neg h1, if_neg h2]
        ring
      rw [hmap]
  · have hmap : (L.map (fun p => overallVal (processMatch st m) p)) =
        L.map (fun p => overallVal st p
          + ((if p = m.winner then st.bleed * winnerDelta st m else 0)
            + (if p = m.loser then st.bleed * loserDelta st m else 0))) := by
      apply List.map_congr_left
      intro p _
      rw [overallVal_processMatch]
      ring
    rw [hmap, sum_map_add_distrib, sum_map_add_distrib,
      sum_map_indicator _ _ L hnd hw, sum_map_indicator _ _ L hnd hl,
      hdelta]
    ring

/-- Witness for C10: the two-player roster of the one-match scenario. -/
theorem c10_conservation_witness :
    (["A", "B"] : List String).Nodup ∧ mC1.winner ∈ (["A", "B"] : List String)
    ∧ ((["A", "B"] : List String).map
        (fun p => surfEloVal (processMatch initModel mC1) p "hard")).sum
      = ((["A", "B"] : List String).map (fun p => surfEloVal initModel p "hard")).sum :=
  ⟨by decide, by decide,
    (c10_conservation initModel mC1 ["A", "B"] (by decide) (by decide)
      (by decide) "hard").1⟩

/-! ### Claim C7: `last_n_record` -/

/-- **C7 (counterexample)** — at `n = 0` the claim fails: Python
`list(history)[-0:]` is the *whole* history (the guard `len >= 0` always
holds), so on the one-match state `last_n_record("A", "hard", 0)` returns
`(1, 0)`: `wins + losses = 1 ≠ min(0, available) = 0`. -/
theorem c7_counterexample :
    (lastNRecord stC1 "A" "hard" 0).1.1 + (lastNRecord stC1 "A" "hard" 0).1.2
      ≠ min 0 (historyVal stC1 (normalizeName "A")
          (normalizeSurface "hard")).length := by
  decide

/-- **C7 (amended)** — for `n ≥ 1`, `last_n_record` returns `(wins,
losses)` over exactly the most recent `min(n, available)` entries of the
bounded per-surface history, `wins` counting the `W` entries, with
`wins + losses = min(n, available)`; it returns `(0, 0)` for an unknown
player (any `n`); but for `n = 0` the Python slice `[-0:]` selects the
*entire* stored history, so the record over all stored entries is
returned instead of `(0, 0)`. -/
theorem c7_lastN (st : EloModel) (p surface : String) (n : Nat) :
    (1 ≤ n →
      (lastNRecord st p surface n).1 =
        (let hist := historyVal st (normalizeName p) (normalizeSurface surface)
         let recent := hist.drop (hist.length - min n hist.length)
         ((recent.filter (fun e => e.1 == 'W')).length,
          recent.length - (recent.filter (fun e => e.1 == 'W')).length))
      ∧ (lastNRecord st p surface n).1.1 + (lastNRecord st p surface n).1.2
         = min n (historyVal st (normalizeName p)
             (normalizeSurface surface)).length)
    ∧ (alookup st.players (normalizeName p) = none →
        (lastNRecord st p surface n).1 = (0, 0))
    ∧ ((lastNRecord st p surface 0).1
        = (((historyVal st (normalizeName p) (normalizeSurface surface)).filter
              (fun e => e.1 == 'W')).length,
           (historyVal st (normalizeName p) (normalizeSurface surface)).length
             - ((historyVal st (normalizeName p)
                 (normalizeSurface surface)).filter
                (fun e => e.1 == 'W')).length)) := by
  refine ⟨?_, ?_, ?_⟩
  · intro hn
    have hrec : (if n ≤ (historyVal st (normalizeName p)
          (normalizeSurface surface)).length then
        pySliceLast (historyVal st (normalizeName p)
          (normalizeSurface surface)) n
      else historyVal st (normalizeName p) (normalizeSurface surface))
        = (historyVal st (normalizeName p) (normalizeSurface surface)).drop
          ((historyVal st (normalizeName p) (normalizeSurface surface)).length
            - min n (historyVal st (normalizeName p)
                (normalizeSurface surface)).length) := by
      by_cases hle : n ≤ (historyVal st (normalizeName p)
          (normalizeSurface surface)).length
      · rw [if_pos hle]
        unfold pySliceLast
        rw [if_neg (by omega), Nat.min_eq_left hle]
      · rw [if_neg hle, Nat.min_eq_right (by omega)]
        simp
    constructor
    · rw [lastNRecord_fst]
      simp only [hrec]
    · rw [lastNRecord_fst]
      simp only [hrec]
      have hfl := List.length_filter_le (fun e => e.1 == 'W')
        ((historyVal st (normalizeName p) (normalizeSurface surface)).drop
          ((historyVal st (normalizeName p) (normalizeSurface surface)).length
            - min n (historyVal st (normalizeName p)
                (normalizeSurface surface)).length))
      have hdl := List.length_drop
        ((historyVal st (normalizeName p) (normalizeSurface surface)).length
          - min n (historyVal st (normalizeName p)
              (normalizeSurface surface)).length)
        (historyVal st (normalizeName p) (normalizeSurface surface))
      omega
  · intro h
    simp only [lastNRecord, h]
  · rw [lastNRecord_fst]
    have h0 : (0 ≤ (historyVal st (normalizeName p)
        (normalizeSurface surface)).length) := Nat.zero_le _
    simp only [if_pos h0]
    unfold pySliceLast
    rw [if_pos (Eq.refl 0)]

/-- Witness for C7 (amended): `n = 1` on the one-match state. -/
theorem c7_lastN_witness :
    1 ≤ 1
    ∧ (lastNRecord stC1 "A" "hard" 1).1.1 + (lastNRecord stC1 "A" "hard" 1).1.2
      = min 1 (historyVal stC1 (normalizeName "A")
          (normalizeSurface "hard")).length :=
  ⟨by decide, ((c7_lastN stC1 "A" "hard" 1).1 (by decide)).2⟩

/-! ### Claim C6: CSV ingestion (`EloModel.ingest_csv_files`) -/

/-- One CSV row as produced by `csv.DictReader`: a column-name to value
mapping.  `row.get(k, d)` is `agetD row k d`. -/
abbrev Row := List (String × String)

def charDigit (c : Char) : Nat := c.toNat - 48

/-- Python `int(...)` on a string: optional sign followed by a nonempty
digit run, surrounding whitespace allowed; `none` models `ValueError`. -/
def digitsToNat (cs : List Char) : Option Nat :=
  if cs = [] then none
  else if cs.all Char.isDigit then
    some (cs.foldl (fun acc c => acc * 10 + charDigit c) 0)
  else none

def pyParseInt (s : String) : Option Int :=
  match (pyStrip s).toList with
  | '-' :: rest => (digitsToNat rest).map (fun n => -(n : Int))
  | '+' :: rest => (digitsToNat rest).map (fun n => (n : Int))
  | cs => (digitsToNat cs).map (fun n => (n : Int))

/-- `int(row.get('best_of', 3))`: the integer `3` when the column is
absent; a parse of the string when present (`none` = `ValueError`). -/
def pyBestOf (row : Row) : Option Int :=
  match alookup row "best_of" with
  | none => some 3
  | some v => pyParseInt v

def daysInMonth (y m : Nat) : Nat :=
  if m = 2 then
    if (y % 4 = 0 ∧ y % 100 ≠ 0) ∨ y % 400 = 0 then 29 else 28
  else if m = 4 ∨ m = 6 ∨ m = 9 ∨ m = 11 then 30 else 31

def daysBeforeMonth (y m : Nat) : Nat :=
  ((List.range (m - 1)).map (fun i => daysInMonth y (i + 1))).sum

/-- `datetime.date(y, m, d).toordinal()` for a valid proleptic Gregorian
date. -/
def pyOrdinal (y m d : Nat) : Nat :=
  365 * (y - 1) + (y - 1) / 4 - (y - 1) / 100 + (y - 1) / 400
    + daysBeforeMonth y m + d

/-- `datetime.strptime(s, "%Y%m%d")` on an 8-character field: all digits,
year at least 1, month 1–12, day valid for the month; `none` models the
`ValueError` caught by the row loop. -/
def parseYYYYMMDD (s : String) : Option Nat :=
  match s.toList with
  | [y1, y2, y3, y4, m1, m2, d1, d2] =>
      if (y1.isDigit && y2.isDigit && y3.isDigit && y4.isDigit
          && m1.isDigit && m2.isDigit && d1.isDigit && d2.isDigit) then
        let y := ((charDigit y1 * 10 + charDigit y2) * 10 + charDigit y3) * 10
          + charDigit y4
        let mo := charDigit m1 * 10 + charDigit m2
        let dd := charDigit d1 * 10 + charDigit d2
        if 1 ≤ y ∧ 1 ≤ mo ∧ mo ≤ 12 ∧ 1 ≤ dd ∧ dd ≤ daysInMonth y mo then
          some (pyOrdinal y mo dd)
        else none
      else none
  | _ => none

/-- The per-row body of `ingest_csv_files`, in source order: date guard,
`strptime`, field extraction (with `int(best_of)` able to raise), and the
winner/loser emptiness guard.  `none` means the row is skipped — whether
by `continue` or by the `except (ValueError, KeyError)` handler. -/
def parseRow (row : Row) : Option Match :=
  let date_str := pyStrip (agetD row "tourney_date" "")
  if date_str = "" ∨ date_str.length ≠ 8 then none
  else
    match parseYYYYMMDD date_str with
    | none => none
    | some d =>
      let surface := normalizeSurface (agetD row "surface" "")
      let winner := normalizeName (agetD row "winner_name" "")
      let loser := normalizeName (agetD row "loser_name" "")
      let score := pyStrip (agetD row "score" "")
      match pyBestOf row with
      | none => none
      | some bo =>
        let round_name := pyStrip (agetD row "round" "")
        if winner = "" ∨ loser = "" then none
        else some { date := d, surface := surface, winner := winner,
                    loser := loser, score := score, best_of := bo,
                    round_name := round_name }

/-- The collection loop over sources: a `none` source is a missing file
(`FileNotFoundError`, skipped with a warning); rows of present files are
parsed in order, accepted ones appended. -/
def ingestRows (sources : List (Option (List Row))) : List Match :=
  sources.foldl (fun acc osrc =>
    match osrc with
    | none => acc
    | some rows => acc ++ rows.filterMap parseRow) []

/-- `EloModel.ingest_csv_files`: collect, sort by date (stable), store the
sorted list and its maximum date, then fold `_process_match` over it in
chronological order. -/
noncomputable def ingestCsvFiles (st : EloModel)
    (sources : List (Option (List Row))) : EloModel :=
  let all_matches := ingestRows sources
  let sorted := all_matches.mergeSort (fun a b => decide (a.date ≤ b.date))
  let md := if sorted.isEmpty then st.max_date
    else some ((sorted.map Match.date).foldl max 0)
  let st1 := { st with match_list := sorted, max_date := md }
  sorted.foldl processMatch st1

theorem processMatch_match_list (st : EloModel) (m : Match) :
    (processMatch st m).match_list = st.match_list := by
  simp only [processMatch]

theorem foldl_processMatch_match_list (l : List Match) :
    ∀ st : EloModel, (l.foldl processMatch st).match_list = st.match_list := by
  induction l with
  | nil => intro st; rfl
  | cons hd t ih =>
      intro st
      rw [List.foldl_cons, ih, processMatch_match_list]

theorem mem_ingestRows_aux (m : Match) :
    ∀ (sources : List (Option (List Row))) (acc : List Match),
      m ∈ sources.foldl (fun acc osrc =>
        match osrc with
        | none => acc
        | some rows => acc ++ rows.filterMap parseRow) acc ↔
      m ∈ acc ∨ ∃ rows, some rows ∈ sources ∧ ∃ r ∈ rows, parseRow r = some m := by
  intro sources
  induction sources with
  | nil =>
      intro acc
      simp
  | cons osrc t ih =>
      intro acc
      rw [List.foldl_cons]
      cases osrc with
      | none =>
          rw [ih]
          constructor
          · rintro (h | ⟨rows, hrows, hr⟩)
            · exact Or.inl h
            · exact Or.inr ⟨rows, List.mem_cons_of_mem _ hrows, hr⟩
          · rintro (h | ⟨rows, hrows, hr⟩)
            · exact Or.inl h
            · cases List.mem_cons.mp hrows with
              | inl e => exact absurd e.symm (by simp)
              | inr e => exact Or.inr ⟨rows, e, hr⟩
      | some rows =>
          rw [ih]
          constructor
          · rintro (h | ⟨rows2, hrows2, hr2⟩)
            · cases List.mem_append.mp h with
              | inl ha => exact Or.inl ha
              | inr hb =>
                  obtain ⟨r, hr, hpr⟩ := List.mem_filterMap.mp hb
                  exact Or.inr ⟨rows, List.mem_cons_self _ _, r, hr, hpr⟩
            · exact Or.inr ⟨rows2, List.mem_cons_of_mem _ hrows2, hr2⟩
          · rintro (h | ⟨rows2, hrows2, hr2⟩)
            · exact Or.inl (List.mem_append.mpr (Or.inl h))
            · cases List.mem_cons.mp hrows2 with
              | inl e =>
                  obtain ⟨r, hr, hpr⟩ := hr2
                  have hre : rows2 = rows := by injection e
                  subst hre
                  exact Or.inl (List.mem_append.mpr
                    (Or.inr (List.mem_filterMap.mpr ⟨r, hr, hpr⟩)))
              | inr e => exact Or.inr ⟨rows2, e, hr2⟩

theorem mem_ingestRows (sources : List (Option (List Row))) (m : Match) :
    m ∈ ingestRows sources ↔
      ∃ rows, some rows ∈ sources ∧ ∃ r ∈ rows, parseRow r = some m := by
  unfold ingestRows
  rw [mem_ingestRows_aux]
  simp

/-- **C6** — ingestion rejection policy: a row is rejected (its parse is
`none`, the row is skipped, the load continues) exactly when the stripped
date field is empty or not 8 characters, or the date fails to parse as
`YYYYMMDD`, or the `best_of` conversion fails (`ValueError`), or the
winner or loser name normalizes to the empty string; a missing source
contributes nothing (skipped with a warning); and the stored match list
is exactly the date-sorted list of all accepted rows of all present
sources — every accepted row is retained. -/
theorem c6_ingestion (st : EloModel) (sources : List (Option (List Row)))
    (row : Row) (m : Match) :
    (parseRow row = none ↔
      (pyStrip (agetD row "tourney_date" "") = ""
       ∨ (pyStrip (agetD row "tourney_date" "")).length ≠ 8
       ∨ parseYYYYMMDD (pyStrip (agetD row "tourney_date" "")) = none
       ∨ pyBestOf row = none
       ∨ normalizeName (agetD row "winner_name" "") = ""
       ∨ normalizeName (agetD row "loser_name" "") = ""))
    ∧ ingestRows (none :: sources) = ingestRows sources
    ∧ (ingestCsvFiles st sources).match_list
        = (ingestRows sources).mergeSort (fun a b => decide (a.date ≤ b.date))
    ∧ (m ∈ (ingestCsvFiles st sources).match_list ↔
        ∃ rows, some rows ∈ sources ∧ ∃ r ∈ rows, parseRow r = some m) := by
  have hml : (ingestCsvFiles st sources).match_list
      = (ingestRows sources).mergeSort (fun a b => decide (a.date ≤ b.date)) := by
    unfold ingestCsvFiles
    rw [foldl_processMatch_match_list]
  refine ⟨?_, Eq.refl _, hml, ?_⟩
  · simp only [parseRow]
    by_cases h1 : pyStrip (agetD row "tourney_date" "") = ""
      ∨ (pyStrip (agetD row "tourney_date" "")).length ≠ 8
    · rw [if_pos h1]
      constructor
      · intro _
        cases h1 with
        | inl e => exact Or.inl e
        | inr e => exact Or.inr (Or.inl e)
      · intro _
        rfl
    · rw [if_neg h1]
      rw [not_or] at h1
      obtain ⟨h1a, h1b⟩ := h1
      cases h2 : parseYYYYMMDD (pyStrip (agetD row "tourney_date" "")) with
      | none =>
          constructor
          · intro _
            exact Or.inr (Or.inr (Or.inl (Eq.refl _)))
          · intro _
            rfl
      | some d =>
          cases h3 : pyBestOf row with
          | none =>
              constructor
              · intro _
                exact Or.inr (Or.inr (Or.inr (Or.inl (Eq.refl _))))
              · intro _
                rfl
          | some bo =>
              by_cases h4 : normalizeName (agetD row "winner_name" "") = ""
                ∨ normalizeName (agetD row "loser_name" "") = ""
              · constructor
                · intro _
                  cases h4 with
                  | inl e => exact Or.inr (Or.inr (Or.inr (Or.inr (Or.inl e))))
                  | inr e => exact Or.inr (Or.inr (Or.inr (Or.inr (Or.inr e))))
                · intro _
                  exact if_pos h4
              · rw [not_or] at h4
                obtain ⟨h4a, h4b⟩ := h4
                simp [h1a, h1b, h4a, h4b]
  · rw [hml]
    rw [List.Perm.mem_iff (List.mergeSort_perm _ _)]
    exact mem_ingestRows sources m

/-! ### Tournament layer (`app.py`, `ui/tournament.py`) -/

theorem obsPreserved_trans {st st1 st2 : EloModel}
    (h1 : ObsPreserved st st1) (h2 : ObsPreserved st1 st2) :
    ObsPreserved st st2 := by
  obtain ⟨a1, b1, c1, d1, e1, f1, g1, i1, j1, k1⟩ := h1
  obtain ⟨a2, b2, c2, d2, e2, f2, g2, i2, j2, k2⟩ := h2
  exact ⟨fun p => (a2 p).trans (a1 p), fun p => (b2 p).trans (b1 p),
    fun p s => (c2 p s).trans (c1 p s), fun p q => (d2 p q).trans (d1 p q),
    fun p s q => (e2 p s q).trans (e1 p s q),
    fun p s => (f2 p s).trans (f1 p s), g2.trans g1, i2.trans i1,
    j2.trans j1, k2.trans k1⟩

/-- The values returned by the three read queries depend only on the
preserved observations. -/
theorem obsPreserved_query_values {st st2 : EloModel} (h : ObsPreserved st st2) :
    (∀ p s, (getRating st2 p s).1 = (getRating st p s).1)
    ∧ (∀ a b s, (headToHead st2 a b s).1 = (headToHead st a b s).1)
    ∧ (∀ p s n, (lastNRecord st2 p s n).1 = (lastNRecord st p s n).1) := by
  obtain ⟨hkeys, hov, hsurf, hh2o, hh2s, hhist, _, _, _, _⟩ := h
  refine ⟨?_, ?_, ?_⟩
  · intro p s
    rw [getRating_fst, getRating_fst]
    cases s with
    | none => exact hov _
    | some s => exact hsurf _ _
  · intro a b s
    rw [headToHead_fst, headToHead_fst]
    cases s with
    | none => exact hh2o _ _
    | some s => exact hh2s _ _ _
  · intro p s n
    rw [lastNRecord_fst, lastNRecord_fst]
    simp only [hhist]

theorem exportPlayerSnapshot_preserves (st : EloModel) (p surface : String) :
    ObsPreserved st (exportPlayerSnapshot st p surface).2 := by
  simp only [exportPlayerSnapshot]
  have h1 := getRating_surface_preserves st (normalizeName p)
    (normalizeSurface surface)
  have h2 := getRating_none_state
    (getRating st (normalizeName p) (some (normalizeSurface surface))).2
    (normalizeName p)
  rw [h2]
  exact obsPreserved_trans h1
    (lastNRecord_preserves _ (normalizeName p) (normalizeSurface surface) 10)

/-- `EloSystem.get_player_elo(player, surface)` in the loaded state:
`model.get_rating(player, surface)`.  (The materialising state effect of
the underlying read changes no rating value — `getRating_surface_preserves`
— so the value function is used by the tournament layer.) -/
noncomputable def getPlayerElo (st : EloModel) (p surface : String) : ℝ :=
  (getRating st p (some surface)).1

/-- The `player_data` loop of `build_tournament_context` (app.py): for each
player, `export_player_snapshot` then `get_rating(player, surface)`, with
all state effects threaded; collects `(name, surface_elo)`. -/
noncomputable def buildPlayerData (st : EloModel) (players : List String)
    (surface : String) : List (String × ℝ) × EloModel :=
  players.foldl (fun acc p =>
    let snap := exportPlayerSnapshot acc.2 p surface
    let r := getRating snap.2 p (some surface)
    (acc.1 ++ [(p, r.1)], r.2)) ([], st)

/-- The quick-estimate branch of `build_tournament_context` (app.py,
`simulate = 0`): `strength(p) = 2 ** (surface_elo / 400)`,
`title_prob(p) = strength(p) / total_strength`. -/
noncomputable def buildTournamentTitleProbs (st : EloModel)
    (players : List String) (surface : String) : List (String × ℝ) :=
  let data := (buildPlayerData st players surface).1
  let total_strength := (data.map (fun pd => (2:ℝ) ^ (pd.2 / 400))).sum
  data.map (fun pd => (pd.1, (2:ℝ) ^ (pd.2 / 400) / total_strength))

/-- `_calculate_title_probabilities` (ui/tournament.py): the share of raw
surface Elo, `(elo / total_elo) * 100` when `total_elo > 0` else `0`.
(The source finally orders the (player, prob) pairs by probability for
display, which changes no assigned value.) -/
noncomputable def calcTitleProbs (st : EloModel) (players : List String)
    (surface : String) : List (String × ℝ) :=
  let total_elo := (players.map (fun p => getPlayerElo st p surface)).sum
  players.map (fun p =>
    (p, if 0 < total_elo then getPlayerElo st p surface / total_elo * 100 else 0))

theorem buildPlayerData_aux (st : EloModel) (surface : String) :
    ∀ (players : List String) (st0 : EloModel) (acc : List (String × ℝ)),
      ObsPreserved st st0 →
      (players.foldl (fun acc p =>
        let snap := exportPlayerSnapshot acc.2 p surface
        let r := getRating snap.2 p (some surface)
        (acc.1 ++ [(p, r.1)], r.2)) (acc, st0)).1
        = acc ++ players.map (fun p => (p, (getRating st p (some surface)).1)) := by
  intro players
  induction players with
  | nil =>
      intro st0 acc h
      simp
  | cons p t ih =>
      intro st0 acc h
      rw [List.foldl_cons]
      have h1 : ObsPreserved st (exportPlayerSnapshot st0 p surface).2 :=
        obsPreserved_trans h (exportPlayerSnapshot_preserves st0 p surface)
      have hval : (getRating (exportPlayerSnapshot st0 p surface).2 p
          (some surface)).1 = (getRating st p (some surface)).1 :=
        (obsPreserved_query_values h1).1 p (some surface)
      have h2 : ObsPreserved st
          (getRating (exportPlayerSnapshot st0 p surface).2 p (some surface)).2 :=
        obsPreserved_trans h1 (getRating_surface_preserves _ p surface)
      rw [ih _ _ h2, hval]
      simp

theorem buildPlayerData_fst (st : EloModel) (players : List String)
    (surface : String) :
    (buildPlayerData st players surface).1
      = players.map (fun p => (p, (getRating st p (some surface)).1)) := by
  unfold buildPlayerData
  have h := buildPlayerData_aux st surface players st [] (obsPreserved_refl st)
  simpa using h

/-! ### Claim C8: title probabilities -/

/-- A state with `A` at 1900 and `B` at 1500 on hard court. -/
noncomputable def stC8 : EloModel :=
  { initModel with players :=
      [("A", { defaultStats with surface_elos := [("hard", 1900)] }),
       ("B", { defaultStats with surface_elos := [("hard", 1500)] })] }

/-- **C8 (counterexample)** — the dashboard function the claim points at,
`_calculate_title_probabilities`, does *not* compute the exponentiated
softmax share: with hard-court ratings 1900 and 1500 it assigns `A` the
linear share `1900/3400 * 100 ≈ 55.9`, whereas the claimed formula
`2^(1900/400) / (2^(1900/400) + 2^(1500/400))` equals `2/3`. -/
theorem c8_counterexample :
    ¬ (agetD (calcTitleProbs stC8 ["A", "B"] "hard") "A" 0
      = (2:ℝ) ^ (getPlayerElo stC8 "A" "hard" / 400)
        / ((2:ℝ) ^ (getPlayerElo stC8 "A" "hard" / 400)
          + (2:ℝ) ^ (getPlayerElo stC8 "B" "hard" / 400))) := by
  intro h
  have hA : getPlayerElo stC8 "A" "hard" = 1900 := rfl
  have hB : getPlayerElo stC8 "B" "hard" = 1500 := rfl
  have hcode : agetD (calcTitleProbs stC8 ["A", "B"] "hard") "A" 0
      = 1900 / 3400 * 100 := by
    simp only [calcTitleProbs, List.map_cons, List.map_nil, hA, hB,
      List.sum_cons, List.sum_nil]
    have hpos : (0:ℝ) < 1900 + (1500 + 0) := by norm_num
    rw [if_pos hpos, if_pos hpos]
    simp only [agetD, alookup]
    norm_num
  have hclaim : (2:ℝ) ^ (getPlayerElo stC8 "A" "hard" / 400)
      / ((2:ℝ) ^ (getPlayerElo stC8 "A" "hard" / 400)
        + (2:ℝ) ^ (getPlayerElo stC8 "B" "hard" / 400)) = 2 / 3 := by
    rw [hA, hB]
    have h19 : (1900:ℝ)/400 = 1500/400 + 1 := by norm_num
    have hsplit : (2:ℝ) ^ ((1900:ℝ)/400) = 2 ^ ((1500:ℝ)/400) * 2 := by
      rw [h19, Real.rpow_add (by norm_num), Real.rpow_one]
    have hpos : (0:ℝ) < (2:ℝ) ^ ((1500:ℝ)/400) :=
      Real.rpow_pos_of_pos (by norm_num) _
    rw [hsplit]
    rw [show (2:ℝ) ^ ((1500:ℝ)/400) * 2 + 2 ^ ((1500:ℝ)/400)
      = 3 * 2 ^ ((1500:ℝ)/400) by ring]
    rw [div_eq_div_iff (by positivity) (by norm_num)]
    ring
  rw [hcode, hclaim] at h
  norm_num at h

/-- **C8 (amended)** — the `2^(rating/400)` softmax normalization is the
*CLI* quick-estimate fallback (`build_tournament_context` with
`simulate = 0` in app.py): there, every player `p` is assigned title
probability `2^(elo_p/400) / Σ_q 2^(elo_q/400)` with `elo_q` the engine
surface rating; the dashboard `_calculate_title_probabilities`
(ui/tournament.py) instead assigns the linear share
`(elo_p / Σ_q elo_q) * 100` (0 when the total is not positive), ignoring
bracket structure in both cases. -/
theorem c8_title_probs (st : EloModel) (players : List String)
    (surface : String) :
    buildTournamentTitleProbs st players surface
      = players.map (fun p =>
          (p, (2:ℝ) ^ ((getRating st p (some surface)).1 / 400)
            / (players.map (fun q =>
                (2:ℝ) ^ ((getRating st q (some surface)).1 / 400))).sum))
    ∧ calcTitleProbs st players surface
      = players.map (fun p =>
          (p, if 0 < (players.map (fun q => getPlayerElo st q surface)).sum
              then getPlayerElo st p surface
                / (players.map (fun q => getPlayerElo st q surface)).sum * 100
              else 0)) := by
  constructor
  · unfold buildTournamentTitleProbs
    rw [buildPlayerData_fst]
    rw [List.map_map, List.map_map]
    rfl
  · rfl

/-! ### Claim C9: bracket pairing -/

/-- One round of the Monte Carlo bracket fold of `simulate_tournament`
(app.py): match `i` pairs `bracket[i]` with `bracket[-(i+1)]`; `p1`
advances when the uniform draw is below `match_win_prob(p1, p2, surface)`
(the draws of the round are indexed by match). -/
noncomputable def roundWinners (st : EloModel) (surface : String)
    (bracket : List String) (draws : List ℝ) : List String :=
  (List.range (bracket.length / 2)).map (fun i =>
    let p1 := bracket.getD i ""
    let p2 := bracket.getD (bracket.length - (i + 1)) ""
    let prob := (matchWinProb st p1 p2 surface).1
    if draws.getD i 0 < prob then p1 else p2)

theorem roundWinners_length (st : EloModel) (surface : String)
    (bracket : List String) (draws : List ℝ) :
    (roundWinners st surface bracket draws).length = bracket.length / 2 := by
  unfold roundWinners
  rw [List.length_map, List.length_range]

/-- The `while len(bracket) > 1` reduction loop of `simulate_tournament`:
each iteration replaces the bracket by the round winners (one sub-list of
draws per round). -/
noncomputable def runBracket (st : EloModel) (surface : String)
    (bracket : List String) (draws : List (List ℝ)) : List String :=
  if bracket.length ≤ 1 then bracket
  else runBracket st surface (roundWinners st surface bracket (draws.headD []))
    draws.tail
termination_by bracket.length
decreasing_by
  rw [roundWinners_length]
  omega

theorem runBracket_length (st : EloModel) (surface : String) :
    ∀ (n : Nat) (bracket : List String) (ds : List (List ℝ)),
      bracket.length = n → 1 ≤ n →
      (runBracket st surface bracket ds).length = 1 := by
  intro n
  induction n using Nat.strong_induction_on with
  | _ n ih =>
      intro bracket ds hlen h1
      rw [runBracket]
      by_cases hle : bracket.length ≤ 1
      · rw [if_pos hle]
        omega
      · rw [if_neg hle]
        exact ih (bracket.length / 2) (by omega) _ ds.tail
          (roundWinners_length st surface bracket (ds.headD [])) (by omega)

/-- A match record of the dashboard `_generate_bracket`
(ui/tournament.py): pair, winner and the probability used. -/
structure TMatch where
  p1 : String
  p2 : String
  winner : String
  prob : ℝ

def defaultTMatch : TMatch :=
  { p1 := "", p2 := "", winner := "", prob := 0 }

/-- `_simulate_match` of `_generate_bracket`: the win probability comes
from `match_win_prob` (through `get_match_prediction`), `p1` advances when
the draw is below it. -/
noncomputable def simulateMatchT (st : EloModel) (surface p1 p2 : String)
    (d : ℝ) : TMatch :=
  let prob := (matchWinProb st p1 p2 surface).1
  { p1 := p1, p2 := p2, winner := if d < prob then p1 else p2, prob := prob }

/-- The fixed 16-player bracket of the dashboard `_generate_bracket`:
`random.shuffle` is modelled by taking the shuffled order as input, and
each round pairs *adjacent* positions (`current[i]` vs `current[i+1]` for
`i = 0, 2, 4, …`); 15 draws resolve the matches in order. -/
noncomputable def generateBracket (st : EloModel) (surface : String)
    (shuffled : List String) (draws : List ℝ) : List TMatch × List TMatch
      × List TMatch × TMatch :=
  let round1 := (List.range 8).map (fun i =>
    simulateMatchT st surface (shuffled.getD (2 * i) "")
      (shuffled.getD (2 * i + 1) "") (draws.getD i 0))
  let qf_players := round1.map (fun mt => mt.winner)
  let quarterfinals := (List.range 4).map (fun i =>
    simulateMatchT st surface (qf_players.getD (2 * i) "")
      (qf_players.getD (2 * i + 1) "") (draws.getD (8 + i) 0))
  let sf_players := quarterfinals.map (fun mt => mt.winner)
  let semifinals := (List.range 2).map (fun i =>
    simulateMatchT st surface (sf_players.getD (2 * i) "")
      (sf_players.getD (2 * i + 1) "") (draws.getD (12 + i) 0))
  let final_players := semifinals.map (fun mt => mt.winner)
  let fm := simulateMatchT st surface (final_players.getD 0 "")
    (final_players.getD 1 "") (draws.getD 14 0)
  (round1, quarterfinals, semifinals, fm)

/-- Sixteen distinct player names. -/
def names16 : List String :=
  ["P00", "P01", "P02", "P03", "P04", "P05", "P06", "P07",
   "P08", "P09", "P10", "P11", "P12", "P13", "P14", "P15"]

/-- **C9 (counterexample)** — the dashboard bracket generator the claim
points at, `_generate_bracket`, pairs *adjacent* positions after the
shuffle: the first match of round 1 pairs position 0 with position 1, not
with position `length-1-0 = 15`. -/
theorem c9_counterexample :
    ((generateBracket initModel "hard" names16
        (List.replicate 15 (0:ℝ))).1.headD defaultTMatch).p2
      ≠ names16.getD (names16.length - 1 - 0) "" := by
  intro h
  have h1 : ((generateBracket initModel "hard" names16
      (List.replicate 15 (0:ℝ))).1.headD defaultTMatch).p2 = "P01" := rfl
  have h2 : names16.getD (names16.length - 1 - 0) "" = "P15" := rfl
  rw [h1, h2] at h
  exact absurd h (by decide)

theorem getD_map_range {A : Type} (f : Nat → A) (n i : Nat) (d : A)
    (hi : i < n) : ((List.range n).map f).getD i d = f i := by
  rw [List.getD_eq_getElem?_getD, List.getElem?_map, List.getElem?_range hi]
  rfl

/-- **C9 (amended)** — the *CLI* bracket fold (`simulate_tournament`,
app.py) pairs position `i` with position `length-1-i` from the opposite
end in every round and reduces rounds until a single champion remains;
the dashboard `_generate_bracket` (ui/tournament.py) instead shuffles and
then pairs adjacent positions `2i` and `2i+1` through fixed
16→8→4→2→1 rounds. -/
theorem c9_bracket (st : EloModel) (surface : String) (bracket : List String)
    (draws : List ℝ) (ds : List (List ℝ)) (shuffled : List String)
    (i : Nat) (hi : i < bracket.length / 2) (hi8 : i < 8) :
    ((roundWinners st surface bracket draws).getD i ""
      = (if draws.getD i 0 < (matchWinProb st (bracket.getD i "")
            (bracket.getD (bracket.length - 1 - i) "") surface).1
         then bracket.getD i ""
         else bracket.getD (bracket.length - 1 - i) ""))
    ∧ (roundWinners st surface bracket draws).length = bracket.length / 2
    ∧ (1 ≤ bracket.length → (runBracket st surface bracket ds).length = 1)
    ∧ (((generateBracket st surface shuffled draws).1.getD i defaultTMatch).p1
        = shuffled.getD (2 * i) ""
      ∧ ((generateBracket st surface shuffled draws).1.getD i defaultTMatch).p2
        = shuffled.getD (2 * i + 1) "") := by
  refine ⟨?_, roundWinners_length st surface bracket draws, ?_, ?_, ?_⟩
  · unfold roundWinners
    rw [getD_map_range _ _ _ _ hi]
    have hidx : bracket.length - (i + 1) = bracket.length - 1 - i := by omega
    rw [hidx]
  · intro h1
    exact runBracket_length st surface bracket.length bracket ds (Eq.refl _) h1
  · show ((generateBracket st surface shuffled draws).1.getD i defaultTMatch).p1
      = shuffled.getD (2 * i) ""
    unfold generateBracket
    rw [getD_map_range _ _ _ _ hi8]
    rfl
  · show ((generateBracket st surface shuffled draws).1.getD i defaultTMatch).p2
      = shuffled.getD (2 * i + 1) ""
    unfold generateBracket
    rw [getD_map_range _ _ _ _ hi8]
    rfl

/-- Witness for C9 (amended): a 4-player bracket, first match. -/
theorem c9_bracket_witness :
    0 < (["A", "B", "C", "D"] : List String).length / 2 ∧ 0 < 8
    ∧ (1 ≤ (["A", "B", "C", "D"] : List String).length →
        (runBracket initModel "hard" ["A", "B", "C", "D"] [[0, 0], [0]]).length
          = 1) :=
  ⟨by decide, by decide,
    (c9_bracket initModel "hard" ["A", "B", "C", "D"] [0, 0] [[0, 0], [0]]
      ["A", "B", "C", "D"] 0 (by decide) (by decide)).2.2.1⟩

end AceCast
